import Mathlib

/-!
# Verification of the mem-oracle indexing-and-retrieval engine

Shallow embedding of the core of the `mem-oracle` documentation oracle:
the local vector store (`src/storage/vector-store.ts`), the local
TF-hash embedding provider (`src/embedding/local.ts`), the text chunker
(`src/crawler/chunker.ts`), the HTTP fetcher (`crawler/fetcher.ts`), and
the indexer orchestrator (`crawler/indexer.ts`): its `indexPage` pipeline
and the search-result budget shaping.

Numbers: JavaScript `number` arithmetic on exact values is modelled with
`ℚ` where the source computes ratios, and with `ℝ` where the source takes
square roots (vector normalisation, cosine similarity).  32-bit wrapping
(`| 0`, `<< 5`) is modelled explicitly on `Int`.  Stateful classes become
explicit state passing; fallible code returns `Except String`.
-/

/-! ## Local vector store (`src/storage/vector-store.ts`) -/

/-- Metadata attached to a stored vector (`StoredVector.metadata`). -/
structure VecMetadata where
  docsetId : String
  pageId : String
  chunkId : String
  url : String
  title : Option String
  heading : Option String
  content : String
deriving Repr

/-- `EmbeddingVector`: input to `upsert`. -/
structure EmbeddingVector where
  id : String
  vector : List ℝ
  metadata : VecMetadata

/-- `StoredVector`: what the index holds (same fields as `EmbeddingVector`). -/
structure StoredVector where
  id : String
  vector : List ℝ
  metadata : VecMetadata

/-- `VectorIndex`: per-namespace record `{ vectors, dimensions }`. -/
structure VectorIndex where
  vectors : List StoredVector
  dimensions : ℕ

/-- The in-memory `indices : Map<string, VectorIndex>` of `LocalVectorStore`,
as an insertion-ordered association list.  Disk persistence (`saveIndex`,
and `init`'s load of a previously saved file) is a write-through mirror of
this map, so it is not modelled separately. -/
def StoreState := List (String × VectorIndex)

/-- `Map.get` (string keys compare by equality). -/
def lookupNs (s : StoreState) (ns : String) : Option VectorIndex :=
  match s with
  | [] => none
  | (k, v) :: rest => if k = ns then some v else lookupNs rest ns

/-- `Map.set`: replace the binding if the key is present, else append. -/
def setNs (s : StoreState) (ns : String) (idx : VectorIndex) : StoreState :=
  match s with
  | [] => [(ns, idx)]
  | (k, v) :: rest =>
      if k = ns then (k, idx) :: rest else (k, v) :: setNs rest ns idx

namespace LocalVectorStore

/-- `init(namespace)`: no-op when the namespace is already present,
otherwise install the fresh index `{ vectors: [], dimensions: 0 }`. -/
def init (s : StoreState) (ns : String) : StoreState :=
  if (lookupNs s ns).isSome then s else setNs s ns ⟨[], 0⟩

/-- The body of the `for (const vector of vectors)` loop in `upsert`:
lock `dimensions` on first insert, then replace the vector with a
matching id (`findIndex`) or append. -/
def upsertOne (idx : VectorIndex) (v : EmbeddingVector) : VectorIndex :=
  let dims := if idx.dimensions = 0 then v.vector.length else idx.dimensions
  let sv : StoredVector := ⟨v.id, v.vector, v.metadata⟩
  match idx.vectors.findIdx? (fun w => w.id = v.id) with
  | some i => ⟨idx.vectors.set i sv, dims⟩
  | none => ⟨idx.vectors ++ [sv], dims⟩

/-- `upsert(namespace, vectors)`. -/
def upsert (s : StoreState) (ns : String) (vs : List EmbeddingVector) : StoreState :=
  let s' := init s ns
  match lookupNs s' ns with
  | some idx => setNs s' ns (vs.foldl upsertOne idx)
  | none => s'

/-- `delete(namespace, ids)`: drop every stored vector whose id is in `ids`. -/
def deleteIds (s : StoreState) (ns : String) (ids : List String) : StoreState :=
  let s' := init s ns
  match lookupNs s' ns with
  | some idx =>
      setNs s' ns ⟨idx.vectors.filter (fun v => ¬ ids.contains v.id), idx.dimensions⟩
  | none => s'

/-- `clear(namespace)`: reset the namespace to the fresh index
(and remove the on-disk file, not modelled). -/
def clear (s : StoreState) (ns : String) : StoreState :=
  setNs s ns ⟨[], 0⟩

end LocalVectorStore

/-- One public operation on the store, for reasoning about operation
sequences. -/
inductive StoreOp where
  | initOp (ns : String)
  | upsertOp (ns : String) (vs : List EmbeddingVector)
  | deleteOp (ns : String) (ids : List String)
  | clearOp (ns : String)

/-- Apply one operation. -/
def applyStoreOp (s : StoreState) : StoreOp → StoreState
  | .initOp ns => LocalVectorStore.init s ns
  | .upsertOp ns vs => LocalVectorStore.upsert s ns vs
  | .deleteOp ns ids => LocalVectorStore.deleteIds s ns ids
  | .clearOp ns => LocalVectorStore.clear s ns

/-- Run a sequence of operations from the empty store (fresh process). -/
def runStoreOps (ops : List StoreOp) : StoreState :=
  ops.foldl applyStoreOp []

/-- The vectors carried by an operation (the batch of an upsert). -/
def opVectors : StoreOp → List EmbeddingVector
  | .upsertOp _ vs => vs
  | _ => []

/-- Spec property P1: every stored vector's length equals the
namespace's recorded `dimensions`. -/
def dimInvariant (s : StoreState) : Prop :=
  ∀ ns idx, lookupNs s ns = some idx →
    ∀ v ∈ idx.vectors, v.vector.length = idx.dimensions

/-! ### C1: dimensionality across operation sequences -/

/-- Strengthened inductive invariant: every namespace is either fresh
(`dimensions = 0`, no vectors) or locked to the common length `d` with
all stored vectors of length `d`. -/
def strongDimInv (d : ℕ) (s : StoreState) : Prop :=
  ∀ ns idx, lookupNs s ns = some idx →
    (idx.dimensions = 0 ∧ idx.vectors = []) ∨
    (idx.dimensions = d ∧ ∀ v ∈ idx.vectors, v.vector.length = d)

theorem lookupNs_setNs_self (s : StoreState) (ns : String) (idx : VectorIndex) :
    lookupNs (setNs s ns idx) ns = some idx := by
  induction s with
  | nil => simp [setNs, lookupNs]
  | cons hd tl ih =>
      obtain ⟨k, v⟩ := hd
      by_cases hk : k = ns
      · simp [setNs, hk, lookupNs]
      · simp [setNs, hk, lookupNs, ih]

theorem lookupNs_setNs_ne (s : StoreState) (ns ns' : String) (idx : VectorIndex)
    (h : ns' ≠ ns) : lookupNs (setNs s ns idx) ns' = lookupNs s ns' := by
  have h' : ns ≠ ns' := Ne.symm h
  induction s with
  | nil => simp [setNs, lookupNs, h']
  | cons hd tl ih =>
      obtain ⟨k, v⟩ := hd
      by_cases hk : k = ns
      · subst hk
        simp [setNs, lookupNs, h']
      · simp [setNs, hk, lookupNs, ih]

theorem upsertOne_findIdx_none (idx : VectorIndex) (v : EmbeddingVector)
    (h : idx.vectors.findIdx? (fun w => w.id = v.id) = none) :
    LocalVectorStore.upsertOne idx v =
      ⟨idx.vectors ++ [⟨v.id, v.vector, v.metadata⟩],
        if idx.dimensions = 0 then v.vector.length else idx.dimensions⟩ := by
  simp [LocalVectorStore.upsertOne, h]

theorem upsertOne_findIdx_some (idx : VectorIndex) (v : EmbeddingVector) (i : ℕ)
    (h : idx.vectors.findIdx? (fun w => w.id = v.id) = some i) :
    LocalVectorStore.upsertOne idx v =
      ⟨idx.vectors.set i ⟨v.id, v.vector, v.metadata⟩,
        if idx.dimensions = 0 then v.vector.length else idx.dimensions⟩ := by
  simp [LocalVectorStore.upsertOne, h]

theorem upsertOne_preserves (d : ℕ) (idx : VectorIndex) (v : EmbeddingVector)
    (hg : (idx.dimensions = 0 ∧ idx.vectors = []) ∨
      (idx.dimensions = d ∧ ∀ w ∈ idx.vectors, w.vector.length = d))
    (hv : v.vector.length = d) :
    (LocalVectorStore.upsertOne idx v).dimensions = d ∧
      ∀ w ∈ (LocalVectorStore.upsertOne idx v).vectors, w.vector.length = d := by
  rcases hfi : idx.vectors.findIdx? (fun w => w.id = v.id) with _ | i
  · rw [upsertOne_findIdx_none idx v hfi]
    rcases hg with ⟨h0, he⟩ | ⟨hd, hall⟩
    · refine ⟨by simp [h0, hv], ?_⟩
      intro w hw
      simp only [he, List.nil_append, List.mem_singleton] at hw
      subst hw; exact hv
    · constructor
      · by_cases h0 : idx.dimensions = 0
        · simp only [h0, if_pos rfl]; exact hv
        · simp only [if_neg h0]; exact hd
      · intro w hw
        simp only at hw
        rcases List.mem_append.mp hw with h | h
        · exact hall w h
        · simp only [List.mem_singleton] at h
          subst h; exact hv
  · rw [upsertOne_findIdx_some idx v i hfi]
    rcases hg with ⟨h0, he⟩ | ⟨hd, hall⟩
    · rw [he] at hfi
      simp [List.findIdx?] at hfi
    · constructor
      · by_cases h0 : idx.dimensions = 0
        · simp only [h0, if_pos rfl]; exact hv
        · simp only [if_neg h0]; exact hd
      · intro w hw
        simp only at hw
        rcases List.mem_or_eq_of_mem_set hw with h | h
        · exact hall w h
        · subst h; exact hv

theorem foldl_upsertOne_preserves (d : ℕ) (vs : List EmbeddingVector)
    (hvs : ∀ v ∈ vs, v.vector.length = d) (idx : VectorIndex)
    (hg : (idx.dimensions = 0 ∧ idx.vectors = []) ∨
      (idx.dimensions = d ∧ ∀ w ∈ idx.vectors, w.vector.length = d)) :
    (vs.foldl LocalVectorStore.upsertOne idx).dimensions = 0 ∧
        (vs.foldl LocalVectorStore.upsertOne idx).vectors = [] ∨
      (vs.foldl LocalVectorStore.upsertOne idx).dimensions = d ∧
        ∀ w ∈ (vs.foldl LocalVectorStore.upsertOne idx).vectors, w.vector.length = d := by
  induction vs generalizing idx with
  | nil => simpa using hg
  | cons v vs ih =>
      have hv : v.vector.length = d := hvs v (List.mem_cons_self _ _)
      have step := upsertOne_preserves d idx v hg hv
      simpa using ih (fun w hw => hvs w (List.mem_cons_of_mem _ hw))
        (LocalVectorStore.upsertOne idx v) (Or.inr step)

theorem init_preserves (d : ℕ) (s : StoreState) (ns : String)
    (hs : strongDimInv d s) : strongDimInv d (LocalVectorStore.init s ns) := by
  unfold LocalVectorStore.init
  by_cases h : (lookupNs s ns).isSome
  · simpa [h] using hs
  · simp only [h, if_false, Bool.false_eq_true]
    intro ns' idx' hl
    by_cases hne : ns' = ns
    · subst hne
      rw [lookupNs_setNs_self] at hl
      exact Or.inl (by cases hl; exact ⟨rfl, rfl⟩)
    · rw [lookupNs_setNs_ne _ _ _ _ hne] at hl
      exact hs ns' idx' hl

theorem applyStoreOp_preserves (d : ℕ) (s : StoreState) (op : StoreOp)
    (hs : strongDimInv d s) (hop : ∀ v ∈ opVectors op, v.vector.length = d) :
    strongDimInv d (applyStoreOp s op) := by
  cases op with
  | initOp ns =>
      exact init_preserves d s ns hs
  | upsertOp ns vs =>
      have hinit := init_preserves d s ns hs
      simp only [applyStoreOp, LocalVectorStore.upsert]
      rcases hl0 : lookupNs (LocalVectorStore.init s ns) ns with _ | idx0
      · exact hinit
      · simp only []
        intro ns' idx' hl
        by_cases hne : ns' = ns
        · subst hne
          rw [lookupNs_setNs_self] at hl
          cases hl
          exact foldl_upsertOne_preserves d vs
            (fun v hv => hop v (by simpa [opVectors] using hv)) idx0 (by
              rcases hinit ns' idx0 hl0 with h | h
              · exact Or.inl h
              · exact Or.inr h)
        · rw [lookupNs_setNs_ne _ _ _ _ hne] at hl
          exact hinit ns' idx' hl
  | deleteOp ns ids =>
      have hinit := init_preserves d s ns hs
      simp only [applyStoreOp, LocalVectorStore.deleteIds]
      rcases hl0 : lookupNs (LocalVectorStore.init s ns) ns with _ | idx0
      · exact hinit
      · simp only []
        intro ns' idx' hl
        by_cases hne : ns' = ns
        · subst hne
          rw [lookupNs_setNs_self] at hl
          cases hl
          rcases hinit ns' idx0 hl0 with ⟨h0, he⟩ | ⟨hd, hall⟩
          · exact Or.inl ⟨h0, by simp [he]⟩
          · exact Or.inr ⟨hd, fun v hv => hall v (List.mem_of_mem_filter hv)⟩
        · rw [lookupNs_setNs_ne _ _ _ _ hne] at hl
          exact hinit ns' idx' hl
  | clearOp ns =>
      simp only [applyStoreOp, LocalVectorStore.clear]
      intro ns' idx' hl
      by_cases hne : ns' = ns
      · subst hne
        rw [lookupNs_setNs_self] at hl
        exact Or.inl (by cases hl; exact ⟨rfl, rfl⟩)
      · rw [lookupNs_setNs_ne _ _ _ _ hne] at hl
        exact hs ns' idx' hl

theorem strongDimInv_runStoreOps (d : ℕ) (ops : List StoreOp)
    (h : ∀ op ∈ ops, ∀ v ∈ opVectors op, v.vector.length = d) :
    strongDimInv d (runStoreOps ops) := by
  suffices hgen : ∀ s, strongDimInv d s → strongDimInv d (ops.foldl applyStoreOp s) by
    exact hgen [] (by intro ns idx hl; simp [lookupNs] at hl)
  induction ops with
  | nil => intro s hs; simpa using hs
  | cons op rest ih =>
      intro s hs
      simp only [List.foldl_cons]
      exact ih (fun o ho v hv => h o (List.mem_cons_of_mem _ ho) v hv)
        (applyStoreOp s op)
        (applyStoreOp_preserves d s op hs (h op (List.mem_cons_self _ _)))

/-- C1 (amended): the store never validates a later vector's length
against the locked `dimensions`; the dimensionality invariant holds
exactly for operation sequences whose upserted vectors all share one
length `d`.  Under that assumption, after any sequence of
init/upsert/delete/clear operations, every stored vector's length
equals its namespace's recorded `dimensions`. -/
theorem C1_dim_invariant_uniform_upserts (d : ℕ) (ops : List StoreOp)
    (h : ∀ op ∈ ops, ∀ v ∈ opVectors op, v.vector.length = d) :
    dimInvariant (runStoreOps ops) := by
  intro ns idx hl v hv
  rcases strongDimInv_runStoreOps d ops h ns idx hl with ⟨h0, he⟩ | ⟨hd, hall⟩
  · rw [he] at hv; cases hv
  · rw [hd]; exact hall v hv

/-- A concrete metadata record (contents irrelevant to dimensionality). -/
def mdA : VecMetadata := ⟨"ds", "pg", "ck", "http://e/x", none, none, "body"⟩

/-- A concrete embedding vector of a given length. -/
def zeroVec (id : String) (n : ℕ) : EmbeddingVector :=
  ⟨id, List.replicate n 0, mdA⟩

/-- Witness for `C1_dim_invariant_uniform_upserts` at a concrete
operation sequence of uniform vector length 1. -/
theorem C1_dim_invariant_uniform_upserts_witness :
    (∀ op ∈ [StoreOp.upsertOp "n" [zeroVec "a" 1]],
      ∀ v ∈ opVectors op, v.vector.length = 1) ∧
    dimInvariant (runStoreOps [StoreOp.upsertOp "n" [zeroVec "a" 1]]) := by
  have h : ∀ op ∈ [StoreOp.upsertOp "n" [zeroVec "a" 1]],
      ∀ v ∈ opVectors op, v.vector.length = 1 := by
    intro op hop v hv
    simp only [List.mem_singleton] at hop
    subst hop
    simp only [opVectors, List.mem_singleton] at hv
    subst hv
    simp [zeroVec]
  exact ⟨h, C1_dim_invariant_uniform_upserts 1 _ h⟩

/-- C1 (counterexample): upserting a length-1 vector and then a length-2
vector into the same namespace leaves a stored vector whose length (2)
differs from the namespace's locked `dimensions` (1) — `upsert` performs
no length validation, so the claimed invariant fails. -/
theorem C1_counterexample :
    ¬ dimInvariant
      (runStoreOps [StoreOp.upsertOp "n" [zeroVec "a" 1],
                    StoreOp.upsertOp "n" [zeroVec "b" 2]]) := by
  intro h
  have hv := h "n"
    ⟨[⟨"a", List.replicate 1 0, mdA⟩, ⟨"b", List.replicate 2 0, mdA⟩], 1⟩
    (by rfl) ⟨"b", List.replicate 2 0, mdA⟩ (by simp)
  simp at hv

/-! ## Local embedding provider (`src/embedding/local.ts`)

TF over hashed token buckets, then L2 normalisation.  Exact values are
`ℚ` until `normalize`, which introduces a square root and lands in `ℝ`.
JS `\s` and `\w` character classes are modelled on their ASCII range
(the repository tokenises lower-cased ASCII documentation text). -/

/-- JS `\s` (ASCII range: space, tab, newline, carriage return,
vertical tab, form feed). -/
def isJsSpace (c : Char) : Bool :=
  c = ' ' || c = '\t' || c = '\n' || c = '\r' || c.toNat = 11 || c.toNat = 12

/-- JS `\w` = `[A-Za-z0-9_]`. -/
def isJsWordChar (c : Char) : Bool :=
  c.isAlphanum || c = '_'

/-- `str.split(/\\s+/)` on a character list: pieces between maximal
whitespace runs (leading/trailing empty pieces included, as in JS).
`cur` is the current piece reversed; `skipping` is true inside a
whitespace run (structural recursion, so proofs can evaluate it). -/
def splitWsAux : List Char → List Char → Bool → List String
  | [], cur, _ => [String.mk cur.reverse]
  | c :: cs, cur, skipping =>
      if isJsSpace c then
        if skipping then splitWsAux cs cur true
        else String.mk cur.reverse :: splitWsAux cs [] true
      else splitWsAux cs (c :: cur) false

/-- `str.split(/\s+/)`. -/
def jsSplitWs (l : List Char) : List String :=
  splitWsAux l [] false

namespace LocalEmbeddingProvider

/-- `this.dimensions = 384`. -/
def dimensions : ℕ := 384

/-- `tokenize`: lower-case, replace `[^\w\s]` by a space, split on
whitespace, keep tokens longer than 2 characters. -/
def tokenize (text : String) : List String :=
  let cleaned := text.toLower.data.map
    (fun c => if isJsWordChar c || isJsSpace c then c else ' ')
  (jsSplitWs cleaned).filter (fun t => 2 < t.length)

/-- One step of the counting loop of `calculateTF`
(`Map.set` keeps the position of an existing key). -/
def bumpCount (m : List (String × ℕ)) (t : String) : List (String × ℕ) :=
  match m with
  | [] => [(t, 1)]
  | (k, c) :: rest => if k = t then (k, c + 1) :: rest else (k, c) :: bumpCount rest t

/-- `calculateTF`: token counts, then each count divided by the number
of tokens. -/
def calculateTF (tokens : List String) : List (String × ℚ) :=
  let counts := tokens.foldl bumpCount []
  counts.map (fun p => (p.1, (p.2 : ℚ) / (tokens.length : ℚ)))

/-- Wrap to a signed 32-bit integer (JS `| 0` / `& hash`). -/
def toInt32 (n : ℤ) : ℤ := (n + 2 ^ 31) % 2 ^ 32 - 2 ^ 31

/-- `hashString`: `hash = ((hash << 5) - hash) + charCode; hash &= hash`.
`<< 5` wraps to 32 bits before the subtraction; the subtraction and the
character addition are exact in doubles and wrapped by `& hash`. -/
def hashString (s : String) : ℤ :=
  s.data.foldl (fun h c => toInt32 (toInt32 (h * 32) - h + c.toNat)) 0

/-- The bucket-accumulation loop of `embedSingleSync`:
`vector[Math.abs(hash) % dimensions] += freq * (hash >= 0 ? 1 : -1)`
starting from `new Array(dimensions).fill(0)`. -/
def accumulateVector (tf : List (String × ℚ)) : List ℚ :=
  tf.foldl
    (fun vec p =>
      let h := hashString p.1
      let idx := h.natAbs % dimensions
      let sign : ℚ := if 0 ≤ h then 1 else -1
      vec.set idx (vec.getD idx 0 + p.2 * sign))
    (List.replicate dimensions 0)

/-- `vector.reduce((sum, v) => sum + v * v, 0)`. -/
def sumSqQ (v : List ℚ) : ℚ :=
  v.foldl (fun sum x => sum + x * x) 0

/-- `normalize`: divide by the magnitude unless it is zero. -/
noncomputable def normalize (v : List ℚ) : List ℝ :=
  let magnitude := Real.sqrt ((sumSqQ v : ℚ) : ℝ)
  if magnitude = 0 then v.map (fun (x : ℚ) => (x : ℝ))
  else v.map (fun (x : ℚ) => (x : ℝ) / magnitude)

/-- The in-memory provider state: the opportunistically grown
`vocabulary` map, kept as its insertion-ordered key list (the stored
index of a key is its position). -/
structure ProviderState where
  vocabulary : List String

/-- The vocabulary-growing loop of `embedSingleSync`:
unknown tokens are appended with index `vocabulary.size`. -/
def growVocabulary (vocab : List String) (tokens : List String) : List String :=
  tokens.foldl (fun vb t => if t ∈ vb then vb else vb ++ [t]) vocab

/-- `embedSingleSync`: tokenize, TF, grow the vocabulary, accumulate the
hashed-bucket vector, normalise. -/
noncomputable def embedSingleSync (text : String) (st : ProviderState) :
    List ℝ × ProviderState :=
  let tokens := tokenize text
  let tf := calculateTF tokens
  let st' : ProviderState := ⟨growVocabulary st.vocabulary tokens⟩
  (normalize (accumulateVector tf), st')

/-- `embed(texts)`: `texts.map(t => embedSingleSync(t))`, threading the
mutable vocabulary left to right. -/
noncomputable def embed (texts : List String) (st : ProviderState) :
    List (List ℝ) × ProviderState :=
  texts.foldl
    (fun acc t =>
      let r := embedSingleSync t acc.2
      (acc.1 ++ [r.1], r.2))
    ([], st)

end LocalEmbeddingProvider

/-! ### C10: local embedding noninterference -/

/-- C10: the vector returned by `embedSingleSync` depends only on the
input text — for any two provider states (any two histories of
previously embedded texts, hence any two vocabularies), the embedding of
a given text is identical; the vocabulary is write-only. -/
theorem C10_local_embedding_noninterference (text : String)
    (s1 s2 : LocalEmbeddingProvider.ProviderState) :
    (LocalEmbeddingProvider.embedSingleSync text s1).1 =
    (LocalEmbeddingProvider.embedSingleSync text s2).1 := rfl

/-! ## HTTP fetcher (`crawler/fetcher.ts`)

The network is an oracle mapping a URL and the conditional request
headers (`If-None-Match`, `If-Modified-Since`) to a transport error or
an HTTP response; the content cache is explicit state.  The WHATWG `URL`
platform builtin is modelled for the plain
`scheme://host/path?query` shape used by documentation-site URLs. -/

/-- A parsed HTTP response, as far as the fetcher consumes it. -/
structure HttpResponse where
  status : ℕ
  statusText : String
  body : String
  contentTypeHeader : Option String
  etag : Option String
  lastModified : Option String

/-- `response.ok`: status in the 2xx range. -/
def respOk (r : HttpResponse) : Prop := 200 ≤ r.status ∧ r.status < 300

instance (r : HttpResponse) : Decidable (respOk r) := by
  unfold respOk; infer_instance

/-- An entry of the content cache. -/
structure CachedContent where
  content : String
  contentType : String
  fetchedAt : ℕ
  etag : Option String
  lastModified : Option String

/-- The content cache, keyed by URL. -/
def CacheState := List (String × CachedContent)

/-- `cache.get(url)`. -/
def lookupCache (s : CacheState) (url : String) : Option CachedContent :=
  match s with
  | [] => none
  | (k, v) :: rest => if k = url then some v else lookupCache rest url

/-- `cache.set(url, entry)`. -/
def setCache (s : CacheState) (url : String) (cc : CachedContent) : CacheState :=
  match s with
  | [] => [(url, cc)]
  | (k, v) :: rest =>
      if k = url then (k, cc) :: rest else (k, v) :: setCache rest url cc

/-- The network oracle: URL, `If-None-Match`, `If-Modified-Since` ↦
transport error or response. -/
def NetOracle := String → Option String → Option String → Except String HttpResponse

/-- `FetchResult` as returned by the fetcher. -/
structure FetchResult where
  url : String
  content : String
  contentType : String
  etag : Option String
  lastModified : Option String
  statusCode : ℕ
  fromCache : Bool
deriving DecidableEq

/-- `FetchOptions` (timeout is real time and not modelled). -/
structure FetchOptions where
  etag : Option String
  lastModified : Option String

/-- `p` occurs as a contiguous sublist of `l` (structural substring
search). -/
def containsSub (l pat : List Char) : Bool :=
  match l with
  | [] => pat.isEmpty
  | _ :: rest => pat.isPrefixOf l || containsSub rest pat

/-- `s.includes(pat)`. -/
def strIncludes (s pat : String) : Bool :=
  containsSub s.data pat.data

/-- `s.startsWith(pat)`. -/
def strStartsWith (s pat : String) : Bool :=
  pat.data.isPrefixOf s.data

/-- `s.endsWith(pat)`. -/
def strEndsWith (s pat : String) : Bool :=
  pat.data.isSuffixOf s.data

/-- `s.trim()` (ASCII whitespace range). -/
def jsTrim (s : String) : String :=
  String.mk (((s.data.dropWhile isJsSpace).reverse.dropWhile isJsSpace).reverse)

/-- First occurrence split: `some (before, after)` around the first
occurrence of `pat` in `l`. -/
def splitOnce (l pat : List Char) : Option (List Char × List Char) :=
  match l with
  | [] => if pat.isEmpty then some ([], []) else none
  | c :: rest =>
      if pat.isPrefixOf l then some ([], l.drop pat.length)
      else
        match splitOnce rest pat with
        | some (pre, post) => some (c :: pre, post)
        | none => none

/-- The components of a parsed URL that the fetcher reads or writes. -/
structure UrlParts where
  scheme : String
  host : String
  pathname : String
  search : String

/-- `new URL(url)`, modelled for the plain `scheme://host/path?query`
shape: fails (throws) when there is no `://` or the scheme or host is
empty; the pathname runs from the first `/` after the host to the first
`?`, and defaults to `/`. -/
def parseUrl (url : String) : Option UrlParts :=
  match splitOnce url.data "://".data with
  | none => none
  | some (scheme, rest) =>
      if scheme.isEmpty || rest.isEmpty then none
      else
        let host := rest.takeWhile (fun c => c ≠ '/' && c ≠ '?')
        if host.isEmpty then none
        else
          let afterHost := rest.drop host.length
          let pathname := afterHost.takeWhile (fun c => c ≠ '?')
          let search := afterHost.drop pathname.length
          some ⟨String.mk scheme, String.mk host,
            if pathname.isEmpty then "/" else String.mk pathname,
            String.mk search⟩

/-- Serialise a `UrlParts` back to a string (`urlObj.toString()`),
normalising an empty or relative path to an absolute one. -/
def urlToString (u : UrlParts) : String :=
  u.scheme ++ "://" ++ u.host ++
    (if strStartsWith u.pathname "/" then u.pathname else "/" ++ u.pathname) ++ u.search

/-- `/\\.\\w{2,4}$/.test(url)`: the URL ends in a dot followed by two to
four word characters. -/
def hasFileExtension (url : String) : Bool :=
  let rev := url.data.reverse
  let run := rev.takeWhile isJsWordChar
  decide (2 ≤ run.length) && decide (run.length ≤ 4) &&
    (match rev.drop run.length with
     | '.' :: _ => true
     | _ => false)

namespace HttpFetcher

/-- `shouldTryMarkdown(url)`: skip markdown/extension URLs, then try for
`/docs`, `/documentation`, `/guide` paths; `new URL` throws on an
unparsable URL. -/
def shouldTryMarkdown (url : String) : Except String Bool :=
  if strEndsWith url ".md" || strEndsWith url ".mdx" then .ok false
  else if hasFileExtension url then .ok false
  else
    match parseUrl url with
    | none => .error "Invalid URL"
    | some u =>
        .ok (strIncludes u.pathname "/docs" ||
          strIncludes u.pathname "/documentation" ||
          strIncludes u.pathname "/guide")

/-- `toMarkdownUrl(url)`: drop one trailing slash, append `.md` unless
already present, re-serialise. -/
def toMarkdownUrl (url : String) : Except String String :=
  match parseUrl url with
  | none => .error "Invalid URL"
  | some u =>
      let path := if strEndsWith u.pathname "/" then String.mk u.pathname.data.dropLast
        else u.pathname
      let path := if strEndsWith path ".md" then path else path ++ ".md"
      .ok (urlToString { u with pathname := path })

/-- `detectContentType(url, content, serverType)`. -/
def detectContentType (url content serverType : String) : String :=
  if strEndsWith url ".md" || strEndsWith url ".mdx" then "text/markdown"
  else
    let trimmed := jsTrim content
    if strStartsWith trimmed "# " || strStartsWith trimmed "## " ||
        (strStartsWith trimmed "---\n" &&
          containsSub (trimmed.data.drop 4) "\n---".data) ||
        (strStartsWith trimmed "* **" &&
          (let core := (trimmed.data.drop 4).takeWhile (fun c => c ≠ '*')
           decide (0 < core.length) &&
             "**".data.isPrefixOf ((trimmed.data.drop 4).drop core.length))) then
      "text/markdown"
    else serverType

/-- The `If-None-Match` request header: the explicit option, else the
cached entry's etag. -/
def requestEtag (opts : FetchOptions) (cached : Option CachedContent) : Option String :=
  match opts.etag with
  | some e => some e
  | none => match cached with
    | some cc => cc.etag
    | none => none

/-- The `If-Modified-Since` request header. -/
def requestLastModified (opts : FetchOptions) (cached : Option CachedContent) : Option String :=
  match opts.lastModified with
  | some lm => some lm
  | none => match cached with
    | some cc => cc.lastModified
    | none => none

/-- `fetchUrl(url, options)`: one `fetch` of `url`; serve the cached
body on a 304; `throw new Error("HTTP <status>: <statusText>")` inside
the `try` when the response is not ok; on any caught error (transport
or the thrown HTTP error) return the cached body with `statusCode: 0,
fromCache: true` when a cached entry exists, else rethrow; on success
store the body in the cache and return it. -/
def fetchUrl (cache : CacheState) (net : NetOracle) (url : String)
    (opts : FetchOptions) (now : ℕ) : Except String FetchResult × CacheState :=
  let cached := lookupCache cache url
  match net url (requestEtag opts cached) (requestLastModified opts cached) with
  | .error e =>
      match cached with
      | some cc =>
          (.ok ⟨url, cc.content, cc.contentType, cc.etag, cc.lastModified, 0, true⟩, cache)
      | none => (.error e, cache)
  | .ok resp =>
      if resp.status = 304 ∧ cached.isSome then
        match cached with
        | some cc =>
            (.ok ⟨url, cc.content, cc.contentType, cc.etag, cc.lastModified, 304, true⟩, cache)
        | none => (.error "unreachable", cache)
      else if ¬ respOk resp then
        match cached with
        | some cc =>
            (.ok ⟨url, cc.content, cc.contentType, cc.etag, cc.lastModified, 0, true⟩, cache)
        | none =>
            (.error ("HTTP " ++ toString resp.status ++ ": " ++ resp.statusText), cache)
      else
        let contentType := detectContentType url resp.body
          (resp.contentTypeHeader.getD "text/html")
        let cache' := setCache cache url
          ⟨resp.body, contentType, now, resp.etag, resp.lastModified⟩
        (.ok ⟨url, resp.body, contentType, resp.etag, resp.lastModified,
          resp.status, false⟩, cache')

/-- `fetch(url, options)`: optionally probe the `.md` variant first,
falling back to the requested URL; the third component lists the URLs
passed to the underlying `fetch` (one per `fetchUrl` call), in order.
`shouldTryMarkdown` may throw (invalid URL), which propagates. -/
def fetch (tryMarkdownFirst : Bool) (cache : CacheState) (net : NetOracle)
    (url : String) (opts : FetchOptions) (now : ℕ) :
    Except String FetchResult × CacheState × List String :=
  if tryMarkdownFirst then
    match shouldTryMarkdown url with
    | .error e => (.error e, cache, [])
    | .ok false =>
        let r := fetchUrl cache net url opts now
        (r.1, r.2, [url])
    | .ok true =>
        match toMarkdownUrl url with
        | .error e => (.error e, cache, [])
        | .ok mdUrl =>
            if mdUrl ≠ url then
              match fetchUrl cache net mdUrl opts now with
              | (.ok mdResult, cache2) =>
                  if mdResult.statusCode = 200 ∧ 100 < mdResult.content.length then
                    (.ok { mdResult with url := url }, cache2, [mdUrl])
                  else
                    let r2 := fetchUrl cache2 net url opts now
                    (r2.1, r2.2, [mdUrl, url])
              | (.error _, cache2) =>
                  let r2 := fetchUrl cache2 net url opts now
                  (r2.1, r2.2, [mdUrl, url])
            else
              let r := fetchUrl cache net url opts now
              (r.1, r.2, [url])
  else
    let r := fetchUrl cache net url opts now
    (r.1, r.2, [url])

end HttpFetcher

/-! ### C3: fetcher error contract on 4xx/5xx -/

/-- C3 (amended): on an HTTP 4xx/5xx response, `fetchUrl` raises
`HTTP <status>: <statusText>` only when no cached body exists for the
URL; when a cached body exists, the error thrown for the bad status is
caught by the same function's catch-all and the cached body is returned
with `status = 0, fromCache = true` — the cached-body fallback is not
limited to transport errors. -/
theorem C3_http_4xx5xx_contract (cache : CacheState) (net : NetOracle)
    (url : String) (opts : FetchOptions) (now : ℕ) (resp : HttpResponse)
    (hnet : net url (HttpFetcher.requestEtag opts (lookupCache cache url))
      (HttpFetcher.requestLastModified opts (lookupCache cache url)) = .ok resp)
    (hstatus : 400 ≤ resp.status ∧ resp.status < 600) :
    (lookupCache cache url = none →
      (HttpFetcher.fetchUrl cache net url opts now).1 =
        .error ("HTTP " ++ toString resp.status ++ ": " ++ resp.statusText)) ∧
    (∀ cc, lookupCache cache url = some cc →
      (HttpFetcher.fetchUrl cache net url opts now).1 =
        .ok ⟨url, cc.content, cc.contentType, cc.etag, cc.lastModified, 0, true⟩) := by
  obtain ⟨h4, h6⟩ := hstatus
  have h304 : resp.status ≠ 304 := by omega
  have hok : ¬ respOk resp := by rintro ⟨h1, h2⟩; omega
  constructor
  · intro hnone
    rw [hnone] at hnet
    simp [HttpFetcher.fetchUrl, hnet, hnone, h304, hok]
  · intro cc hsome
    rw [hsome] at hnet
    simp [HttpFetcher.fetchUrl, hnet, hsome, h304, hok]

/-- A cached entry for the C3 instance. -/
def c3cc : CachedContent := ⟨"old body", "text/html", 5, none, none⟩

/-- A one-entry cache for the C3 instance. -/
def c3cache : CacheState := [("https://e/x", c3cc)]

/-- A network oracle answering HTTP 404 to everything. -/
def c3net : NetOracle := fun _ _ _ => .ok ⟨404, "Not Found", "nf", none, none, none⟩

/-- Witness for `C3_http_4xx5xx_contract`: a 404 with a cached body
present yields the cached body with `status = 0, fromCache = true`. -/
theorem C3_http_4xx5xx_contract_witness :
    (c3net "https://e/x" (HttpFetcher.requestEtag ⟨none, none⟩ (lookupCache c3cache "https://e/x"))
        (HttpFetcher.requestLastModified ⟨none, none⟩ (lookupCache c3cache "https://e/x")) =
      .ok ⟨404, "Not Found", "nf", none, none, none⟩) ∧
    (400 ≤ 404 ∧ 404 < 600) ∧
    (HttpFetcher.fetchUrl c3cache c3net "https://e/x" ⟨none, none⟩ 0).1 =
      .ok ⟨"https://e/x", "old body", "text/html", none, none, 0, true⟩ := by
  refine ⟨rfl, by omega, ?_⟩
  exact (C3_http_4xx5xx_contract c3cache c3net "https://e/x" ⟨none, none⟩ 0
    ⟨404, "Not Found", "nf", none, none, none⟩ rfl (by decide)).2 c3cc rfl

/-- C3 (counterexample): an HTTP 404 response for a URL with a cached
body does **not** raise `HTTP 404` — `fetchUrl` returns the cached body
with `status = 0, fromCache = true`, refuting "fetch raises on 4xx/5xx
regardless of whether a cached body exists". -/
theorem C3_counterexample :
    (HttpFetcher.fetchUrl c3cache c3net "https://e/x" ⟨none, none⟩ 0).1 =
      .ok ⟨"https://e/x", "old body", "text/html", none, none, 0, true⟩ := by
  rfl

/-! ### C9: requests issued per `fetch` call -/

theorem shouldTryMarkdown_ok_true_parse (url : String)
    (h : HttpFetcher.shouldTryMarkdown url = .ok true) :
    ∃ u, parseUrl url = some u := by
  unfold HttpFetcher.shouldTryMarkdown at h
  split at h
  · exact absurd h (by simp)
  · split at h
    · exact absurd h (by simp)
    · split at h
      · exact absurd h (by simp)
      · next u heq => exact ⟨u, heq⟩

theorem toMarkdownUrl_ok_of_parse (url : String) (u : UrlParts)
    (h : parseUrl url = some u) :
    ∃ mdUrl, HttpFetcher.toMarkdownUrl url = .ok mdUrl := by
  unfold HttpFetcher.toMarkdownUrl
  rw [h]
  exact ⟨_, rfl⟩

/-- C9 (amended): the full request contract of one `fetch` call.  With
`tryMarkdownFirst` off, or on for a URL that does not qualify for the
markdown probe, a single GET goes to the requested URL; an unparsable
URL issues no request; when the probe applies (`tryMarkdownFirst` on,
qualifying URL, distinct `.md` variant) the first GET goes to the `.md`
variant and a second GET to the requested URL follows unless the probe
returned HTTP 200 with more than 100 characters of content; when the
`.md` variant equals the requested URL a single GET goes to the
requested URL. -/
theorem C9_fetch_request_log (tmf : Bool) (cache : CacheState) (net : NetOracle)
    (url : String) (opts : FetchOptions) (now : ℕ) :
    (tmf = false →
      (HttpFetcher.fetch tmf cache net url opts now).2.2 = [url]) ∧
    (tmf = true → ∀ e, HttpFetcher.shouldTryMarkdown url = .error e →
      (HttpFetcher.fetch tmf cache net url opts now).2.2 = []) ∧
    (tmf = true → HttpFetcher.shouldTryMarkdown url = .ok false →
      (HttpFetcher.fetch tmf cache net url opts now).2.2 = [url]) ∧
    (tmf = true → HttpFetcher.shouldTryMarkdown url = .ok true →
      ∃ mdUrl, HttpFetcher.toMarkdownUrl url = .ok mdUrl ∧
        ((mdUrl = url ∧
            (HttpFetcher.fetch tmf cache net url opts now).2.2 = [url]) ∨
         (mdUrl ≠ url ∧
           ((∃ r, (HttpFetcher.fetchUrl cache net mdUrl opts now).1 = .ok r ∧
               r.statusCode = 200 ∧ 100 < r.content.length ∧
               (HttpFetcher.fetch tmf cache net url opts now).2.2 = [mdUrl]) ∨
            ((¬ ∃ r, (HttpFetcher.fetchUrl cache net mdUrl opts now).1 = .ok r ∧
                r.statusCode = 200 ∧ 100 < r.content.length) ∧
              (HttpFetcher.fetch tmf cache net url opts now).2.2 = [mdUrl, url]))))) := by
  refine ⟨?_, ?_, ?_, ?_⟩
  · rintro rfl
    simp [HttpFetcher.fetch]
  · rintro rfl e he
    simp [HttpFetcher.fetch, he]
  · rintro rfl hok
    simp [HttpFetcher.fetch, hok]
  · rintro rfl htrue
    obtain ⟨u, hu⟩ := shouldTryMarkdown_ok_true_parse url htrue
    obtain ⟨mdUrl, hmd⟩ := toMarkdownUrl_ok_of_parse url u hu
    refine ⟨mdUrl, hmd, ?_⟩
    by_cases hne : mdUrl = url
    · exact Or.inl ⟨hne, by simp [HttpFetcher.fetch, htrue, hmd, hne]⟩
    · refine Or.inr ⟨hne, ?_⟩
      rcases h4 : HttpFetcher.fetchUrl cache net mdUrl opts now with ⟨r, cache2⟩
      cases r with
      | error e =>
          refine Or.inr ⟨?_, ?_⟩
          · rintro ⟨r2, hr2, _, _⟩
            exact absurd hr2 (by simp)
          · simp [HttpFetcher.fetch, htrue, hmd, hne, h4]
      | ok mdResult =>
          by_cases h5 : mdResult.statusCode = 200 ∧ 100 < mdResult.content.length
          · refine Or.inl ⟨mdResult, rfl, h5.1, h5.2, ?_⟩
            · simp only [HttpFetcher.fetch, htrue, hmd, hne, h4, if_true]
              simp [hne, h5]
          · refine Or.inr ⟨?_, ?_⟩
            · rintro ⟨r2, hr2, hs, hl⟩
              have : mdResult = r2 := by
                simpa using hr2
              exact h5 (this ▸ ⟨hs, hl⟩)
            · simp only [HttpFetcher.fetch, htrue, hmd, hne, h4, if_true]
              simp [hne, h5]

/-- The network oracle for the C9 instance: 404 for the markdown
variant, 200 for everything else. -/
def c9net : NetOracle := fun u _ _ =>
  if u = "https://example.com/docs/guide.md" then
    .ok ⟨404, "Not Found", "nf", none, none, none⟩
  else
    .ok ⟨200, "OK", "okbody", some "text/html", none, none⟩

/-- C9 (counterexample): with the default `tryMarkdownFirst = true`, a
`/docs` URL makes `fetch` issue **two** GETs — the first one to the
`.md` variant (a different URL than requested), the second to the
requested URL — refuting "exactly one HTTP GET request, to the
requested URL". -/
theorem C9_counterexample :
    (HttpFetcher.fetch true [] c9net "https://example.com/docs/guide"
        ⟨none, none⟩ 0).2.2 =
      ["https://example.com/docs/guide.md", "https://example.com/docs/guide"] := by
  rfl

/-- Witness for `C9_fetch_request_log`: a `.md` URL does not qualify
for the probe, so a single GET goes to the requested URL. -/
theorem C9_fetch_request_log_witness :
    (HttpFetcher.fetch true [] c9net "https://example.com/docs/guide.md"
        ⟨none, none⟩ 0).2.2 = ["https://example.com/docs/guide.md"] :=
  (C9_fetch_request_log true [] c9net "https://example.com/docs/guide.md"
    ⟨none, none⟩ 0).2.2.1 rfl (by rfl)

/-! ## Text chunker (`src/crawler/chunker.ts`)

String positions are code-point indices (the repository chunks ASCII
documentation text, where they coincide with JS UTF-16 indices).  All
splitting loops are explicit state machines so they evaluate
structurally. -/

/-- `HeadingInfo` from the extractor. -/
structure HeadingInfo where
  level : ℕ
  text : String
  offset : ℕ

/-- `ExtractedContent` (the fields the chunker and indexer consume). -/
structure ExtractedContent where
  url : String
  title : String
  content : String
  links : List String
  headings : List HeadingInfo

/-- A produced `Chunk`. -/
structure Chunk where
  content : String
  heading : Option String
  startOffset : ℕ
  endOffset : ℕ
  index : ℕ
deriving DecidableEq, Repr

/-- `ChunkOptions` merged over `DEFAULT_OPTIONS`. -/
structure ChunkOptions where
  maxChunkSize : ℕ := 1500
  minChunkSize : ℕ := 100
  overlap : ℕ := 100

/-- `text.slice(a, b)` for `a ≤ b` (code-point indices). -/
def strSlice (s : String) (a b : ℕ) : String :=
  String.mk ((s.data.drop a).take (b - a))

/-- `text.slice(a)`. -/
def strSliceFrom (s : String) (a : ℕ) : String :=
  String.mk (s.data.drop a)

/-- `text.split(/\n\n+/)`: pieces between maximal runs of two or more
newlines.  `pending` counts trailing newlines seen so far, capped at 2. -/
def splitParasAux : List Char → List Char → ℕ → List String
  | [], cur, pending =>
      if 2 ≤ pending then [String.mk cur.reverse, ""]
      else if pending = 1 then [String.mk ('\n' :: cur).reverse]
      else [String.mk cur.reverse]
  | c :: cs, cur, pending =>
      if c = '\n' then splitParasAux cs cur (min (pending + 1) 2)
      else if 2 ≤ pending then String.mk cur.reverse :: splitParasAux cs [c] 0
      else if pending = 1 then splitParasAux cs (c :: '\n' :: cur) 0
      else splitParasAux cs (c :: cur) 0

/-- `text.split(/\n\n+/)`. -/
def jsSplitParas (s : String) : List String :=
  splitParasAux s.data [] 0

/-- `[.!?]`. -/
def isSentenceEnd (c : Char) : Bool := c = '.' || c = '!' || c = '?'

/-- `text.split(/(?<=[.!?])\s+/)`: split at maximal whitespace runs
immediately preceded by sentence-ending punctuation. -/
def splitSentencesAux : List Char → List Char → Bool → List String
  | [], cur, _ => [String.mk cur.reverse]
  | c :: cs, cur, skipping =>
      if skipping then
        if isJsSpace c then splitSentencesAux cs cur true
        else splitSentencesAux cs (c :: cur) false
      else if isJsSpace c &&
          (match cur with | p :: _ => isSentenceEnd p | [] => false) then
        String.mk cur.reverse :: splitSentencesAux cs [] true
      else splitSentencesAux cs (c :: cur) false

/-- `text.split(/(?<=[.!?])\s+/)`. -/
def jsSplitSentences (s : String) : List String :=
  splitSentencesAux s.data [] false

/-- Lines of a text with the offset of each line start. -/
def splitLinesAux : List Char → List Char → ℕ → List (ℕ × List Char)
  | [], cur, start => [(start, cur.reverse)]
  | c :: cs, cur, start =>
      if c = '\n' then (start, cur.reverse) :: splitLinesAux cs [] (start + cur.length + 1)
      else splitLinesAux cs (c :: cur) start

/-- `^#{1,6}\s*TEXT\s*$` (multiline) tested against one line, for a
heading text that does not itself start with `#` or whitespace. -/
def lineMatchesHeadingHash (line text : List Char) : Bool :=
  let hashes := line.takeWhile (fun c => c = '#')
  decide (1 ≤ hashes.length) && decide (hashes.length ≤ 6) &&
    (let rest := (line.drop hashes.length).dropWhile isJsSpace
     text.isPrefixOf rest && (rest.drop text.length).all isJsSpace)

/-- `^TEXT\s*$` (multiline) tested against one line. -/
def lineMatchesHeadingPlain (line text : List Char) : Bool :=
  text.isPrefixOf line && (line.drop text.length).all isJsSpace

/-- The pattern search of `splitByHeadings`: the first pattern that
matches anywhere wins; `match.index` is the matching line's start. -/
def findHeadingPosition (text h : String) : Option ℕ :=
  let lines := splitLinesAux text.data [] 0
  match lines.find? (fun p => lineMatchesHeadingHash p.2 h.data) with
  | some p => some p.1
  | none =>
      match lines.find? (fun p => lineMatchesHeadingPlain p.2 h.data) with
      | some p => some p.1
      | none => none

/-- A section produced by `splitByHeadings`. -/
structure DocSection where
  content : String
  heading : Option String
  startOffset : ℕ

/-- Stable insertion (ascending position) for the
`headingPositions.sort((a, b) => a.position - b.position)` call. -/
def insertByPosAsc (x : String × ℕ) : List (String × ℕ) → List (String × ℕ)
  | [] => [x]
  | y :: ys => if x.2 < y.2 then x :: y :: ys else y :: insertByPosAsc x ys

/-- Stable sort by ascending position. -/
def sortByPosAsc (l : List (String × ℕ)) : List (String × ℕ) :=
  l.foldl (fun acc x => insertByPosAsc x acc) []

/-- The section-building loop of `splitByHeadings`. -/
def sectionsLoop (text : String) : List (String × ℕ) → ℕ → Option String → List DocSection
  | [], lastPos, lastHeading =>
      if lastPos < text.length then
        let content := jsTrim (strSliceFrom text lastPos)
        if content.data.isEmpty then [] else [⟨content, lastHeading, lastPos⟩]
      else []
  | (heading, position) :: rest, lastPos, lastHeading =>
      (if lastPos < position then
        let content := jsTrim (strSlice text lastPos position)
        if content.data.isEmpty then [] else [⟨content, lastHeading, lastPos⟩]
      else []) ++ sectionsLoop text rest position (some heading)

namespace TextChunker

/-- `splitByHeadings(text, headings)`. -/
def splitByHeadings (text : String) (headings : List HeadingInfo) : List DocSection :=
  if headings.isEmpty then [⟨text, none, 0⟩]
  else
    let headingPositions := headings.filterMap
      (fun h => (findHeadingPosition text h.text).map (fun pos => (h.text, pos)))
    let sorted := sortByPosAsc headingPositions
    let sections := sectionsLoop text sorted 0 none
    if sections.isEmpty then [⟨text, none, 0⟩] else sections

/-- Loop state shared by the three splitting loops. -/
structure SplitState where
  chunks : List Chunk
  currentChunk : String
  currentOffset : ℕ
  chunkIndex : ℕ

/-- One word of the `splitByWords` loop. -/
def sbwStep (heading : Option String) (maxSize : ℕ)
    (st : SplitState) (word : String) : SplitState :=
  if st.currentChunk.length + word.length + 1 ≤ maxSize then
    { st with currentChunk :=
        st.currentChunk ++ (if st.currentChunk.data.isEmpty then "" else " ") ++ word }
  else if st.currentChunk.data.isEmpty then
    { st with currentChunk := word }
  else
    { chunks := st.chunks ++ [⟨st.currentChunk, heading, st.currentOffset,
        st.currentOffset + st.currentChunk.length, st.chunkIndex⟩],
      currentChunk := word,
      currentOffset := st.currentOffset + st.currentChunk.length + 1,
      chunkIndex := st.chunkIndex + 1 }

/-- `splitByWords(text, heading, baseOffset, maxSize, startIndex)`. -/
def splitByWords (text : String) (heading : Option String)
    (baseOffset maxSize startIndex : ℕ) : List Chunk :=
  let words := jsSplitWs text.data
  let st := words.foldl (sbwStep heading maxSize) ⟨[], "", baseOffset, startIndex⟩
  if st.currentChunk.data.isEmpty then st.chunks
  else st.chunks ++ [⟨st.currentChunk, heading, st.currentOffset,
    st.currentOffset + st.currentChunk.length, st.chunkIndex⟩]

/-- `if (currentChunk) { push; advance offset and index; }` in the
sentence loop. -/
def sbsPushCur (heading : Option String) (st : SplitState) : SplitState :=
  if st.currentChunk.data.isEmpty then st
  else
    { st with
      chunks := st.chunks ++ [⟨st.currentChunk, heading, st.currentOffset,
        st.currentOffset + st.currentChunk.length, st.chunkIndex⟩],
      currentOffset := st.currentOffset + st.currentChunk.length + 1,
      chunkIndex := st.chunkIndex + 1 }

/-- One sentence of the `splitBySentences` loop. -/
def sbsStep (heading : Option String) (maxSize : ℕ)
    (st : SplitState) (sentence : String) : SplitState :=
  if st.currentChunk.length + sentence.length + 1 ≤ maxSize then
    { st with currentChunk :=
        st.currentChunk ++ (if st.currentChunk.data.isEmpty then "" else " ") ++ sentence }
  else
    let st1 := sbsPushCur heading st
    if maxSize < sentence.length then
      let wordChunks := splitByWords sentence heading st1.currentOffset maxSize st1.chunkIndex
      { chunks := st1.chunks ++ wordChunks,
        currentChunk := "",
        currentOffset := st1.currentOffset,
        chunkIndex := st1.chunkIndex + wordChunks.length }
    else
      { st1 with currentChunk := sentence }

/-- `splitBySentences(text, heading, baseOffset, maxSize, startIndex)`. -/
def splitBySentences (text : String) (heading : Option String)
    (baseOffset maxSize startIndex : ℕ) : List Chunk :=
  let sentences := jsSplitSentences text
  let st := sentences.foldl (sbsStep heading maxSize) ⟨[], "", baseOffset, startIndex⟩
  if st.currentChunk.data.isEmpty then st.chunks
  else st.chunks ++ [⟨st.currentChunk, heading, st.currentOffset,
    st.currentOffset + st.currentChunk.length, st.chunkIndex⟩]

/-- `currentChunk += (currentChunk ? "\\n\\n" : "") + trimmedPara` (used in
both the fits branch and the too-small branch of the paragraph loop). -/
def slsAppend (st : SplitState) (trimmedPara : String) : SplitState :=
  { st with currentChunk :=
      st.currentChunk ++ (if st.currentChunk.data.isEmpty then "" else "\n\n") ++ trimmedPara }

/-- The push branch of the paragraph loop: emit the accumulator, start
the next one from the overlap tail (when `overlap > 0`) plus the
paragraph, and advance the offset by the new accumulator's length. -/
def slsPush (heading : Option String) (overlap : ℕ) (st : SplitState)
    (trimmedPara : String) : SplitState :=
  let newChunk :=
    if 0 < overlap then
      strSliceFrom st.currentChunk (st.currentChunk.length - overlap) ++
        "\n\n" ++ trimmedPara
    else trimmedPara
  { chunks := st.chunks ++ [⟨st.currentChunk, heading, st.currentOffset,
      st.currentOffset + st.currentChunk.length, st.chunkIndex⟩],
    currentChunk := newChunk,
    currentOffset := st.currentOffset + newChunk.length,
    chunkIndex := st.chunkIndex + 1 }

/-- The sentence-splitting overflow check closing the paragraph loop
body. -/
def slsOverflow (heading : Option String) (maxSize : ℕ) (st1 : SplitState) : SplitState :=
  if maxSize < st1.currentChunk.length then
    let sentenceChunks := splitBySentences st1.currentChunk heading
      st1.currentOffset maxSize st1.chunkIndex
    { chunks := st1.chunks ++ sentenceChunks,
      currentChunk := "",
      currentOffset := st1.currentOffset,
      chunkIndex := st1.chunkIndex + sentenceChunks.length }
  else st1

/-- One paragraph of the `splitLargeSection` loop (empty trimmed
paragraphs are skipped). -/
def slsStep (heading : Option String) (maxSize minSize overlap : ℕ)
    (st : SplitState) (para : String) : SplitState :=
  let trimmedPara := jsTrim para
  if trimmedPara.data.isEmpty then st
  else if st.currentChunk.length + trimmedPara.length + 2 ≤ maxSize then
    slsAppend st trimmedPara
  else
    slsOverflow heading maxSize
      (if minSize ≤ st.currentChunk.length then slsPush heading overlap st trimmedPara
       else slsAppend st trimmedPara)

/-- The tail of `splitLargeSection` after the paragraph loop: push a
large-enough leftover, else merge a small leftover into the last chunk
when the merged content stays within `maxSize`, else push it. -/
def slsFinish (heading : Option String) (maxSize minSize : ℕ)
    (st : SplitState) : List Chunk :=
  if minSize ≤ st.currentChunk.length then
    st.chunks ++ [⟨st.currentChunk, heading, st.currentOffset,
      st.currentOffset + st.currentChunk.length, st.chunkIndex⟩]
  else if st.currentChunk.data.isEmpty then st.chunks
  else
    match st.chunks.getLast? with
    | none => st.chunks
    | some lastChunk =>
        if lastChunk.content.length + st.currentChunk.length ≤ maxSize then
          st.chunks.dropLast ++ [{ lastChunk with
            content := lastChunk.content ++ "\n\n" ++ st.currentChunk,
            endOffset := lastChunk.startOffset +
              (lastChunk.content ++ "\n\n" ++ st.currentChunk).length }]
        else
          st.chunks ++ [⟨st.currentChunk, heading, st.currentOffset,
            st.currentOffset + st.currentChunk.length, st.chunkIndex⟩]

/-- `splitLargeSection(text, heading, baseOffset, maxSize, minSize,
overlap, startIndex)`. -/
def splitLargeSection (text : String) (heading : Option String)
    (baseOffset maxSize minSize overlap startIndex : ℕ) : List Chunk :=
  let paragraphs := jsSplitParas text
  let st := paragraphs.foldl (slsStep heading maxSize minSize overlap)
    ⟨[], "", baseOffset, startIndex⟩
  slsFinish heading maxSize minSize st

/-- The inner absorption loop of `mergeSmallChunks`: keep appending the
next chunk while the current one is below `minSize` and the merge fits
in `maxSize`; returns the merged chunk and the unconsumed rest. -/
def mergeAbsorb (minSize maxSize : ℕ) (current : Chunk) :
    List Chunk → Chunk × List Chunk
  | [] => (current, [])
  | next :: rest =>
      if current.content.length < minSize ∧
          current.content.length + next.content.length + 2 ≤ maxSize then
        mergeAbsorb minSize maxSize
          { current with
            content := current.content ++ "\n\n" ++ next.content,
            endOffset := next.endOffset } rest
      else (current, next :: rest)

theorem mergeAbsorb_rest_length (minSize maxSize : ℕ) (current : Chunk)
    (l : List Chunk) :
    (mergeAbsorb minSize maxSize current l).2.length ≤ l.length := by
  induction l generalizing current with
  | nil => simp [mergeAbsorb]
  | cons next rest ih =>
      unfold mergeAbsorb
      by_cases h : current.content.length < minSize ∧
          current.content.length + next.content.length + 2 ≤ maxSize
      · simp only [if_pos h]
        exact le_trans (ih _) (Nat.le_succ _)
      · simp [if_neg h]

/-- The outer while loop of `mergeSmallChunks`. -/
def mergeLoop (minSize maxSize : ℕ) (l : List Chunk) : List Chunk :=
  match l with
  | [] => []
  | c :: rest =>
      (mergeAbsorb minSize maxSize c rest).1 ::
        mergeLoop minSize maxSize (mergeAbsorb minSize maxSize c rest).2
termination_by l.length
decreasing_by
  simp only [List.length_cons]
  exact Nat.lt_succ_of_le (mergeAbsorb_rest_length _ _ _ _)

/-- The final `merged.map((chunk, idx) => ({...chunk, index: idx}))`:
reindex to consecutive indices starting at `k`. -/
def reindexFrom (k : ℕ) : List Chunk → List Chunk
  | [] => []
  | c :: rest => { c with index := k } :: reindexFrom (k + 1) rest

/-- `mergeSmallChunks(chunks, minSize, maxSize)`. -/
def mergeSmallChunks (chunks : List Chunk) (minSize maxSize : ℕ) : List Chunk :=
  if chunks.length ≤ 1 then chunks
  else reindexFrom 0 (mergeLoop minSize maxSize chunks)

/-- The per-section loop of `chunk`. -/
def chunkSectionStep (maxChunkSize minChunkSize overlap : ℕ)
    (acc : List Chunk × ℕ) (sec : DocSection) : List Chunk × ℕ :=
  if sec.content.length ≤ maxChunkSize then
    (acc.1 ++ [⟨sec.content, sec.heading, sec.startOffset,
      sec.startOffset + sec.content.length, acc.2⟩], acc.2 + 1)
  else
    let subChunks := splitLargeSection sec.content sec.heading sec.startOffset
      maxChunkSize minChunkSize overlap acc.2
    (acc.1 ++ subChunks, acc.2 + subChunks.length)

/-- `chunk(content, options)`. -/
def chunk (content : ExtractedContent) (opts : ChunkOptions) : List Chunk :=
  let text := content.content
  let headings := content.headings
  if text.length ≤ opts.maxChunkSize then
    [⟨text, headings.head?.map HeadingInfo.text, 0, text.length, 0⟩]
  else
    let sections := splitByHeadings text headings
    let acc := sections.foldl
      (chunkSectionStep opts.maxChunkSize opts.minChunkSize opts.overlap) ([], 0)
    mergeSmallChunks acc.1 opts.minChunkSize opts.maxChunkSize

end TextChunker

/-! ### C6 and C8: chunk size bound and index density -/

/-- A chunk content consisting of a single word: it contains no
whitespace (the word-splitting fallback emits such chunks when one word
exceeds the limit). -/
def isSingleWord (s : String) : Bool :=
  s.data.all (fun c => !isJsSpace c)

/-- C6 (counterexample): with `maxChunkSize = 10, minChunkSize = 5,
overlap = 0`, the content `"aaaaaaa\n\nbbb"` produces a single chunk of
length 12 > 10 whose content contains whitespace (it is not a single
word): the leftover-merge tail of `splitLargeSection` checks
`last.length + leftover.length ≤ maxSize` but appends a 2-character
`"\n\n"` separator as well, exceeding the bound. -/
theorem C6_counterexample :
    (TextChunker.chunk ⟨"u", "t", "aaaaaaa\n\nbbb", [], []⟩ ⟨10, 5, 0⟩).map
        (fun c => (c.content, c.content.length)) = [("aaaaaaa\n\nbbb", 12)] ∧
    isSingleWord "aaaaaaa\n\nbbb" = false := by
  constructor
  · rfl
  · rfl

/-- A chunk within the basic bound, or a single oversized word. -/
def chunkOkW (maxSize : ℕ) (c : Chunk) : Prop :=
  c.content.length ≤ maxSize ∨ isSingleWord c.content = true

/-- A chunk within the bound plus the 2-character separator slack of the
leftover merge, or a single oversized word. -/
def chunkOkM (maxSize : ℕ) (c : Chunk) : Prop :=
  c.content.length ≤ maxSize + 2 ∨ isSingleWord c.content = true

theorem chunkOkW_okM (maxSize : ℕ) (c : Chunk) (h : chunkOkW maxSize c) :
    chunkOkM maxSize c := by
  rcases h with h | h
  · exact Or.inl (by omega)
  · exact Or.inr h

theorem string_length_append (a b : String) :
    (a ++ b).length = a.length + b.length :=
  List.length_append a.data b.data

theorem string_length_mk (l : List Char) : (String.mk l).length = l.length := rfl

theorem string_data_mk (l : List Char) : (String.mk l).data = l := rfl

theorem splitWsAux_single_word (l cur : List Char) (b : Bool)
    (hc : ∀ c ∈ cur, isJsSpace c = false) :
    ∀ s ∈ splitWsAux l cur b, isSingleWord s = true := by
  induction l generalizing cur b with
  | nil =>
      intro s hs
      simp only [splitWsAux, List.mem_singleton] at hs
      subst hs
      simp only [isSingleWord, List.all_eq_true]
      intro c hcm
      rw [List.mem_reverse] at hcm
      simp [hc c hcm]
  | cons c cs ih =>
      intro s hs
      by_cases hsp : isJsSpace c = true
      · cases b with
        | true =>
            simp only [splitWsAux, hsp, if_pos rfl] at hs
            exact ih cur true hc s hs
        | false =>
            simp only [splitWsAux, hsp] at hs
            rcases List.mem_cons.mp hs with h | h
            · subst h
              simp only [isSingleWord, List.all_eq_true]
              intro d hd
              rw [List.mem_reverse] at hd
              simp [hc d hd]
            · exact ih [] true (by intro d hd; cases hd) s h
      · have hsp' : isJsSpace c = false := by
          cases hx : isJsSpace c
          · rfl
          · exact absurd hx hsp
        simp only [splitWsAux, hsp'] at hs
        refine ih (c :: cur) false ?_ s (by simpa using hs)
        intro d hd
        rcases List.mem_cons.mp hd with h | h
        · subst h; exact hsp'
        · exact hc d h

theorem string_isEmpty_length (s : String) :
    s.data.isEmpty = true ↔ s.length = 0 := by
  show s.data.isEmpty = true ↔ s.data.length = 0
  rw [List.isEmpty_iff, List.length_eq_zero]

/-- Invariant of the `splitByWords` loop: emitted chunks are within the
bound or single words; the accumulator is within the bound or a single
word. -/
def sbwInv (maxSize : ℕ) (st : TextChunker.SplitState) : Prop :=
  (∀ c ∈ st.chunks, chunkOkW maxSize c) ∧
    (st.currentChunk.length ≤ maxSize ∨ isSingleWord st.currentChunk = true)

theorem sbwStep_okW (heading : Option String) (maxSize : ℕ)
    (st : TextChunker.SplitState) (word : String)
    (hw : isSingleWord word = true) (hst : sbwInv maxSize st) :
    sbwInv maxSize (TextChunker.sbwStep heading maxSize st word) := by
  obtain ⟨hch, hcur⟩ := hst
  have hemp : ("" : String).length = 0 := rfl
  have hsp1 : (" " : String).length = 1 := rfl
  unfold TextChunker.sbwStep
  by_cases h1 : st.currentChunk.length + word.length + 1 ≤ maxSize
  · simp only [if_pos h1]
    refine ⟨hch, Or.inl ?_⟩
    by_cases he : st.currentChunk.data.isEmpty = true
    · have h0 : st.currentChunk.length = 0 := (string_isEmpty_length _).mp he
      simp only [he, if_true, string_length_append]
      omega
    · simp only [he, Bool.false_eq_true, if_false, string_length_append]
      omega
  · simp only [if_neg h1]
    by_cases he : st.currentChunk.data.isEmpty = true
    · simp only [he, if_true]
      exact ⟨hch, Or.inr hw⟩
    · simp only [he, if_false]
      refine ⟨?_, Or.inr hw⟩
      intro c hc
      rcases List.mem_append.mp hc with h | h
      · exact hch c h
      · simp only [List.mem_singleton] at h
        subst h
        exact hcur

theorem foldl_sbwStep_okW (heading : Option String) (maxSize : ℕ)
    (words : List String) (hws : ∀ w ∈ words, isSingleWord w = true)
    (st : TextChunker.SplitState) (hst : sbwInv maxSize st) :
    sbwInv maxSize (words.foldl (TextChunker.sbwStep heading maxSize) st) := by
  induction words generalizing st with
  | nil => simpa using hst
  | cons w ws ih =>
      simp only [List.foldl_cons]
      exact ih (fun x hx => hws x (List.mem_cons_of_mem _ hx)) _
        (sbwStep_okW heading maxSize st w (hws w (List.mem_cons_self _ _)) hst)

theorem splitByWords_okW (text : String) (heading : Option String)
    (baseOffset maxSize startIndex : ℕ) :
    ∀ c ∈ TextChunker.splitByWords text heading baseOffset maxSize startIndex,
      chunkOkW maxSize c := by
  intro c hc
  unfold TextChunker.splitByWords at hc
  have hwords : ∀ w ∈ jsSplitWs text.data, isSingleWord w = true :=
    splitWsAux_single_word text.data [] false (by intro x hx; cases hx)
  have hinv := foldl_sbwStep_okW heading maxSize (jsSplitWs text.data) hwords
    ⟨[], "", baseOffset, startIndex⟩
    ⟨(by intro x hx; cases hx), Or.inl (by simp)⟩
  set st := (jsSplitWs text.data).foldl (TextChunker.sbwStep heading maxSize)
    ⟨[], "", baseOffset, startIndex⟩ with hstdef
  obtain ⟨hch, hcur⟩ := hinv
  by_cases he : st.currentChunk.data.isEmpty = true
  · simp only [he, if_true] at hc
    exact hch c hc
  · simp only [he, if_false] at hc
    rcases List.mem_append.mp hc with h | h
    · exact hch c h
    · simp only [List.mem_singleton] at h
      subst h
      exact hcur

/-- Invariant of the `splitBySentences` loop: the accumulator always
stays within the bound. -/
def sbsInv (maxSize : ℕ) (st : TextChunker.SplitState) : Prop :=
  (∀ c ∈ st.chunks, chunkOkW maxSize c) ∧ st.currentChunk.length ≤ maxSize

theorem sbsPushCur_chunks_okW (heading : Option String) (maxSize : ℕ)
    (st : TextChunker.SplitState) (hst : sbsInv maxSize st) :
    ∀ c ∈ (TextChunker.sbsPushCur heading st).chunks, chunkOkW maxSize c := by
  obtain ⟨hch, hcur⟩ := hst
  unfold TextChunker.sbsPushCur
  by_cases he : st.currentChunk.data.isEmpty = true
  · simp only [he, if_true]
    exact hch
  · simp only [he, Bool.false_eq_true, if_false]
    intro c hc
    rcases List.mem_append.mp hc with h | h
    · exact hch c h
    · simp only [List.mem_singleton] at h
      subst h
      exact Or.inl hcur

theorem sbsStep_okW (heading : Option String) (maxSize : ℕ)
    (st : TextChunker.SplitState) (sentence : String)
    (hst : sbsInv maxSize st) :
    sbsInv maxSize (TextChunker.sbsStep heading maxSize st sentence) := by
  obtain ⟨hch, hcur⟩ := hst
  have hemp : ("" : String).length = 0 := rfl
  have hsp1 : (" " : String).length = 1 := rfl
  unfold TextChunker.sbsStep
  by_cases h1 : st.currentChunk.length + sentence.length + 1 ≤ maxSize
  · simp only [if_pos h1]
    refine ⟨hch, ?_⟩
    by_cases he : st.currentChunk.data.isEmpty = true
    · have h0 : st.currentChunk.length = 0 := (string_isEmpty_length _).mp he
      simp only [he, if_true, string_length_append]
      omega
    · simp only [he, Bool.false_eq_true, if_false, string_length_append]
      omega
  · simp only [if_neg h1]
    have hst1 := sbsPushCur_chunks_okW heading maxSize st ⟨hch, hcur⟩
    by_cases h2 : maxSize < sentence.length
    · simp only [if_pos h2]
      refine ⟨?_, by simp⟩
      intro c hc
      rcases List.mem_append.mp hc with h | h
      · exact hst1 c h
      · exact splitByWords_okW sentence heading _ maxSize _ c h
    · simp only [if_neg h2]
      exact ⟨hst1, show sentence.length ≤ maxSize from by omega⟩

theorem foldl_sbsStep_okW (heading : Option String) (maxSize : ℕ)
    (sentences : List String) (st : TextChunker.SplitState)
    (hst : sbsInv maxSize st) :
    sbsInv maxSize (sentences.foldl (TextChunker.sbsStep heading maxSize) st) := by
  induction sentences generalizing st with
  | nil => simpa using hst
  | cons s ss ih =>
      simp only [List.foldl_cons]
      exact ih _ (sbsStep_okW heading maxSize st s hst)

theorem splitBySentences_okW (text : String) (heading : Option String)
    (baseOffset maxSize startIndex : ℕ) :
    ∀ c ∈ TextChunker.splitBySentences text heading baseOffset maxSize startIndex,
      chunkOkW maxSize c := by
  intro c hc
  unfold TextChunker.splitBySentences at hc
  have hinv := foldl_sbsStep_okW heading maxSize (jsSplitSentences text)
    ⟨[], "", baseOffset, startIndex⟩
    ⟨(by intro x hx; cases hx), by simp⟩
  set st := (jsSplitSentences text).foldl (TextChunker.sbsStep heading maxSize)
    ⟨[], "", baseOffset, startIndex⟩ with hstdef
  obtain ⟨hch, hcur⟩ := hinv
  by_cases he : st.currentChunk.data.isEmpty = true
  · simp only [he, if_true] at hc
    exact hch c hc
  · simp only [he, Bool.false_eq_true, if_false] at hc
    rcases List.mem_append.mp hc with h | h
    · exact hch c h
    · simp only [List.mem_singleton] at h
      subst h
      exact Or.inl hcur


/-- Invariant of the `splitLargeSection` paragraph loop. -/
def slsInv (maxSize : ℕ) (st : TextChunker.SplitState) : Prop :=
  (∀ c ∈ st.chunks, chunkOkW maxSize c) ∧ st.currentChunk.length ≤ maxSize

theorem slsAppend_chunks (st : TextChunker.SplitState) (p : String) :
    (TextChunker.slsAppend st p).chunks = st.chunks := rfl

theorem slsAppend_length_le (st : TextChunker.SplitState) (p : String)
    (h : st.currentChunk.length + p.length + 2 ≤ maxSize) :
    (TextChunker.slsAppend st p).currentChunk.length ≤ maxSize := by
  show (st.currentChunk ++ (if st.currentChunk.data.isEmpty then "" else "\n\n") ++ p).length ≤ maxSize
  have hemp : ("" : String).length = 0 := rfl
  have hsep : ("\n\n" : String).length = 2 := rfl
  by_cases he : st.currentChunk.data.isEmpty = true
  · simp only [he, if_true, string_length_append]
    omega
  · simp only [he, Bool.false_eq_true, if_false, string_length_append]
    omega

theorem slsPush_chunks_okW (heading : Option String) (maxSize overlap : ℕ)
    (st : TextChunker.SplitState) (p : String) (hst : slsInv maxSize st) :
    ∀ c ∈ (TextChunker.slsPush heading overlap st p).chunks, chunkOkW maxSize c := by
  obtain ⟨hch, hcur⟩ := hst
  intro c hc
  rcases List.mem_append.mp hc with h | h
  · exact hch c h
  · simp only [List.mem_singleton] at h
    subst h
    exact Or.inl hcur

theorem slsOverflow_okW (heading : Option String) (maxSize : ℕ)
    (st1 : TextChunker.SplitState)
    (hch : ∀ c ∈ st1.chunks, chunkOkW maxSize c) :
    slsInv maxSize (TextChunker.slsOverflow heading maxSize st1) := by
  unfold TextChunker.slsOverflow
  by_cases h2 : maxSize < st1.currentChunk.length
  · simp only [if_pos h2]
    refine ⟨?_, by simp⟩
    intro c hc
    rcases List.mem_append.mp hc with h | h
    · exact hch c h
    · exact splitBySentences_okW st1.currentChunk heading _ maxSize _ c h
  · simp only [if_neg h2]
    exact ⟨hch, by omega⟩

theorem slsStep_okW (heading : Option String) (maxSize minSize overlap : ℕ)
    (st : TextChunker.SplitState) (para : String) (hst : slsInv maxSize st) :
    slsInv maxSize (TextChunker.slsStep heading maxSize minSize overlap st para) := by
  unfold TextChunker.slsStep
  by_cases h0 : (jsTrim para).data.isEmpty = true
  · simp only [h0, if_true]
    exact hst
  · simp only [h0, Bool.false_eq_true, if_false]
    by_cases h1 : st.currentChunk.length + (jsTrim para).length + 2 ≤ maxSize
    · simp only [if_pos h1]
      exact ⟨by rw [slsAppend_chunks]; exact hst.1, slsAppend_length_le st (jsTrim para) h1⟩
    · simp only [if_neg h1]
      apply slsOverflow_okW
      by_cases hm : minSize ≤ st.currentChunk.length
      · simp only [hm, if_true]
        exact slsPush_chunks_okW heading maxSize overlap st (jsTrim para) hst
      · simp only [hm, if_false]
        rw [slsAppend_chunks]
        exact hst.1

theorem foldl_slsStep_okW (heading : Option String) (maxSize minSize overlap : ℕ)
    (paras : List String) (st : TextChunker.SplitState) (hst : slsInv maxSize st) :
    slsInv maxSize (paras.foldl (TextChunker.slsStep heading maxSize minSize overlap) st) := by
  induction paras generalizing st with
  | nil => simpa using hst
  | cons p ps ih =>
      simp only [List.foldl_cons]
      exact ih _ (slsStep_okW heading maxSize minSize overlap st p hst)

theorem slsFinish_okM (heading : Option String) (maxSize minSize : ℕ)
    (st : TextChunker.SplitState) (hst : slsInv maxSize st) :
    ∀ c ∈ TextChunker.slsFinish heading maxSize minSize st, chunkOkM maxSize c := by
  obtain ⟨hch, hcur⟩ := hst
  have hsep : ("\n\n" : String).length = 2 := rfl
  intro c hc
  unfold TextChunker.slsFinish at hc
  by_cases hm : minSize ≤ st.currentChunk.length
  · simp only [hm, if_true] at hc
    rcases List.mem_append.mp hc with h | h
    · exact chunkOkW_okM maxSize c (hch c h)
    · simp only [List.mem_singleton] at h
      subst h
      exact Or.inl (show st.currentChunk.length ≤ maxSize + 2 by omega)
  · simp only [hm, if_false] at hc
    by_cases he : st.currentChunk.data.isEmpty = true
    · simp only [he, if_true] at hc
      exact chunkOkW_okM maxSize c (hch c hc)
    · simp only [he, Bool.false_eq_true, if_false] at hc
      rcases hlast : st.chunks.getLast? with _ | lastChunk
      · simp only [hlast] at hc
        exact chunkOkW_okM maxSize c (hch c hc)
      · simp only [hlast] at hc
        by_cases hfit : lastChunk.content.length + st.currentChunk.length ≤ maxSize
        · simp only [hfit, if_true] at hc
          rcases List.mem_append.mp hc with h | h
          · exact chunkOkW_okM maxSize c (hch c (List.mem_of_mem_dropLast h))
          · simp only [List.mem_singleton] at h
            subst h
            refine Or.inl ?_
            show (lastChunk.content ++ "\n\n" ++ st.currentChunk).length ≤ maxSize + 2
            simp only [string_length_append]
            omega
        · simp only [hfit, if_false] at hc
          rcases List.mem_append.mp hc with h | h
          · exact chunkOkW_okM maxSize c (hch c h)
          · simp only [List.mem_singleton] at h
            subst h
            exact Or.inl (show st.currentChunk.length ≤ maxSize + 2 by omega)

theorem splitLargeSection_okM (text : String) (heading : Option String)
    (baseOffset maxSize minSize overlap startIndex : ℕ) :
    ∀ c ∈ TextChunker.splitLargeSection text heading baseOffset maxSize
      minSize overlap startIndex, chunkOkM maxSize c := by
  unfold TextChunker.splitLargeSection
  exact slsFinish_okM heading maxSize minSize _
    (foldl_slsStep_okW heading maxSize minSize overlap (jsSplitParas text)
      ⟨[], "", baseOffset, startIndex⟩ ⟨(by intro x hx; cases hx), by simp⟩)

theorem mergeAbsorb_okM (minSize maxSize : ℕ) (current : Chunk) (l : List Chunk)
    (hcur : chunkOkM maxSize current) (hl : ∀ c ∈ l, chunkOkM maxSize c) :
    chunkOkM maxSize (TextChunker.mergeAbsorb minSize maxSize current l).1 ∧
      ∀ c ∈ (TextChunker.mergeAbsorb minSize maxSize current l).2,
        chunkOkM maxSize c := by
  induction l generalizing current with
  | nil =>
      refine ⟨hcur, ?_⟩
      intro c hc
      simp only [TextChunker.mergeAbsorb] at hc
      cases hc
  | cons next rest ih =>
      unfold TextChunker.mergeAbsorb
      by_cases h : current.content.length < minSize ∧
          current.content.length + next.content.length + 2 ≤ maxSize
      · simp only [if_pos h]
        apply ih
        · refine Or.inl ?_
          show (current.content ++ "\n\n" ++ next.content).length ≤ maxSize + 2
          have hsep : ("\n\n" : String).length = 2 := rfl
          simp only [string_length_append]
          omega
        · exact fun c hc => hl c (List.mem_cons_of_mem _ hc)
      · simp only [if_neg h]
        exact ⟨hcur, hl⟩

theorem mergeLoop_okM (minSize maxSize : ℕ) :
    ∀ (n : ℕ) (l : List Chunk), l.length ≤ n → (∀ c ∈ l, chunkOkM maxSize c) →
      ∀ c ∈ TextChunker.mergeLoop minSize maxSize l, chunkOkM maxSize c := by
  intro n
  induction n with
  | zero =>
      intro l hl hall c hc
      have hnil : l = [] := List.length_eq_zero.mp (Nat.le_zero.mp hl)
      subst hnil
      rw [TextChunker.mergeLoop] at hc
      cases hc
  | succ n ih =>
      intro l hl hall c hc
      match l with
      | [] =>
          rw [TextChunker.mergeLoop] at hc
          cases hc
      | c0 :: rest =>
          rw [TextChunker.mergeLoop] at hc
          have habs := mergeAbsorb_okM minSize maxSize c0 rest
            (hall c0 (List.mem_cons_self _ _))
            (fun x hx => hall x (List.mem_cons_of_mem _ hx))
          rcases List.mem_cons.mp hc with h | h
          · subst h
            exact habs.1
          · refine ih _ ?_ habs.2 c h
            have hrest := TextChunker.mergeAbsorb_rest_length minSize maxSize c0 rest
            simp only [List.length_cons] at hl
            omega

theorem reindexFrom_okM (maxSize : ℕ) :
    ∀ (k : ℕ) (l : List Chunk), (∀ c ∈ l, chunkOkM maxSize c) →
      ∀ c ∈ TextChunker.reindexFrom k l, chunkOkM maxSize c := by
  intro k l
  induction l generalizing k with
  | nil =>
      intro _ c hc
      simp only [TextChunker.reindexFrom] at hc
      cases hc
  | cons c0 rest ih =>
      intro hall c hc
      simp only [TextChunker.reindexFrom] at hc
      rcases List.mem_cons.mp hc with h | h
      · subst h
        exact hall c0 (List.mem_cons_self _ _)
      · exact ih (k + 1) (fun x hx => hall x (List.mem_cons_of_mem _ hx)) c h

theorem mergeSmallChunks_okM (maxSize minSize : ℕ) (chunks : List Chunk)
    (hall : ∀ c ∈ chunks, chunkOkM maxSize c) :
    ∀ c ∈ TextChunker.mergeSmallChunks chunks minSize maxSize,
      chunkOkM maxSize c := by
  unfold TextChunker.mergeSmallChunks
  by_cases h : chunks.length ≤ 1
  · simpa [h] using hall
  · simp only [if_neg h]
    exact reindexFrom_okM maxSize 0 _
      (mergeLoop_okM minSize maxSize chunks.length chunks (le_refl _) hall)

theorem chunkSectionStep_okM (maxSize minSize overlap : ℕ)
    (acc : List Chunk × ℕ) (sec : DocSection)
    (hacc : ∀ c ∈ acc.1, chunkOkM maxSize c) :
    ∀ c ∈ (TextChunker.chunkSectionStep maxSize minSize overlap acc sec).1,
      chunkOkM maxSize c := by
  unfold TextChunker.chunkSectionStep
  by_cases h : sec.content.length ≤ maxSize
  · simp only [if_pos h]
    intro c hc
    rcases List.mem_append.mp hc with hm | hm
    · exact hacc c hm
    · simp only [List.mem_singleton] at hm
      subst hm
      exact Or.inl (show sec.content.length ≤ maxSize + 2 by omega)
  · simp only [if_neg h]
    intro c hc
    rcases List.mem_append.mp hc with hm | hm
    · exact hacc c hm
    · exact splitLargeSection_okM sec.content sec.heading sec.startOffset
        maxSize minSize overlap acc.2 c hm

theorem foldl_chunkSectionStep_okM (maxSize minSize overlap : ℕ)
    (sections : List DocSection) (acc : List Chunk × ℕ)
    (hacc : ∀ c ∈ acc.1, chunkOkM maxSize c) :
    ∀ c ∈ (sections.foldl (TextChunker.chunkSectionStep maxSize minSize overlap) acc).1,
      chunkOkM maxSize c := by
  induction sections generalizing acc with
  | nil => simpa using hacc
  | cons s ss ih =>
      simp only [List.foldl_cons]
      exact ih _ (chunkSectionStep_okM maxSize minSize overlap acc s hacc)

/-- C6 (amended): every chunk returned by `TextChunker.chunk` has
content length at most `maxChunkSize + 2` — the two extra characters
are the `"\n\n"` separator that the leftover merge at the end of
`splitLargeSection` appends without counting — except a chunk that
consists of a single word (no whitespace) longer than the limit. -/
theorem C6_chunk_size_bound (content : ExtractedContent) (opts : ChunkOptions) :
    ∀ c ∈ TextChunker.chunk content opts,
      c.content.length ≤ opts.maxChunkSize + 2 ∨ isSingleWord c.content = true := by
  intro c hc
  unfold TextChunker.chunk at hc
  by_cases h : content.content.length ≤ opts.maxChunkSize
  · simp only [if_pos h, List.mem_singleton] at hc
    subst hc
    exact Or.inl (show content.content.length ≤ opts.maxChunkSize + 2 by omega)
  · simp only [if_neg h] at hc
    exact mergeSmallChunks_okM opts.maxChunkSize opts.minChunkSize _
      (foldl_chunkSectionStep_okM opts.maxChunkSize opts.minChunkSize opts.overlap
        _ ([], 0) (by intro x hx; cases hx)) c hc

/-- Witness for `C6_chunk_size_bound` at a concrete input: a short text
yields one chunk of length 5 ≤ 10 + 2. -/
theorem C6_chunk_size_bound_witness :
    (⟨"hello", none, 0, 5, 0⟩ : Chunk) ∈
      TextChunker.chunk ⟨"u", "t", "hello", [], []⟩ ⟨10, 5, 0⟩ ∧
    ((⟨"hello", none, 0, 5, 0⟩ : Chunk).content.length ≤ 10 + 2 ∨
      isSingleWord (⟨"hello", none, 0, 5, 0⟩ : Chunk).content = true) := by
  refine ⟨by decide, ?_⟩
  exact C6_chunk_size_bound ⟨"u", "t", "hello", [], []⟩ ⟨10, 5, 0⟩
    ⟨"hello", none, 0, 5, 0⟩ (by decide)

/-! Index density (C8). -/

theorem range'_snoc (s n : ℕ) :
    List.range' s n ++ [s + n] = List.range' s (n + 1) := by
  induction n generalizing s with
  | zero => simp
  | succ n ih =>
      rw [List.range'_succ, List.range'_succ]
      have := ih (s + 1)
      simp only [List.cons_append]
      rw [show s + 1 + n = s + (n + 1) by omega] at this
      rw [this]

theorem range'_glue (s m n : ℕ) :
    List.range' s m ++ List.range' (s + m) n = List.range' s (m + n) := by
  induction m generalizing s with
  | zero => simp
  | succ m ih =>
      rw [List.range'_succ]
      have := ih (s + 1)
      rw [show s + 1 + m = s + (m + 1) from by omega] at this
      simp only [List.cons_append, this]
      rw [show m + 1 + n = m + n + 1 from by omega, List.range'_succ]

/-- Index invariant of the splitting loops: emitted chunk indices are
the consecutive range from `startIndex`, and the counter sits one past
the last emitted index. -/
def idxInv (startIndex : ℕ) (st : TextChunker.SplitState) : Prop :=
  st.chunks.map Chunk.index = List.range' startIndex st.chunks.length ∧
    st.chunkIndex = startIndex + st.chunks.length

theorem idxInv_push (startIndex : ℕ) (st : TextChunker.SplitState)
    (hst : idxInv startIndex st) (c : Chunk) (hc : c.index = st.chunkIndex) :
    (st.chunks ++ [c]).map Chunk.index =
      List.range' startIndex (st.chunks ++ [c]).length ∧
    st.chunkIndex + 1 = startIndex + (st.chunks ++ [c]).length := by
  obtain ⟨h1, h2⟩ := hst
  constructor
  · rw [List.map_append, h1]
    simp only [List.map_cons, List.map_nil, List.length_append, List.length_cons,
      List.length_nil]
    rw [hc, h2]
    have := range'_snoc startIndex st.chunks.length
    simpa using this
  · simp only [List.length_append, List.length_cons, List.length_nil]
    omega

theorem sbwStep_idx (heading : Option String) (maxSize startIndex : ℕ)
    (st : TextChunker.SplitState) (word : String) (hst : idxInv startIndex st) :
    idxInv startIndex (TextChunker.sbwStep heading maxSize st word) := by
  unfold TextChunker.sbwStep
  by_cases h1 : st.currentChunk.length + word.length + 1 ≤ maxSize
  · simp only [if_pos h1]
    exact hst
  · simp only [if_neg h1]
    by_cases he : st.currentChunk.data.isEmpty = true
    · simp only [he, if_true]
      exact hst
    · simp only [he, Bool.false_eq_true, if_false]
      exact idxInv_push startIndex st hst _ rfl

theorem foldl_sbwStep_idx (heading : Option String) (maxSize startIndex : ℕ)
    (words : List String) (st : TextChunker.SplitState) (hst : idxInv startIndex st) :
    idxInv startIndex (words.foldl (TextChunker.sbwStep heading maxSize) st) := by
  induction words generalizing st with
  | nil => simpa using hst
  | cons w ws ih =>
      simp only [List.foldl_cons]
      exact ih _ (sbwStep_idx heading maxSize startIndex st w hst)

theorem splitByWords_idx (text : String) (heading : Option String)
    (baseOffset maxSize startIndex : ℕ) :
    (TextChunker.splitByWords text heading baseOffset maxSize startIndex).map Chunk.index =
      List.range' startIndex
        (TextChunker.splitByWords text heading baseOffset maxSize startIndex).length := by
  unfold TextChunker.splitByWords
  have hinv := foldl_sbwStep_idx heading maxSize startIndex (jsSplitWs text.data)
    ⟨[], "", baseOffset, startIndex⟩ ⟨by simp, by simp⟩
  set st := (jsSplitWs text.data).foldl (TextChunker.sbwStep heading maxSize)
    ⟨[], "", baseOffset, startIndex⟩ with hstdef
  by_cases he : st.currentChunk.data.isEmpty = true
  · simp only [he, if_true]
    exact hinv.1
  · simp only [he, Bool.false_eq_true, if_false]
    exact (idxInv_push startIndex st hinv _ rfl).1

theorem idxInv_append_block (startIndex : ℕ) (st : TextChunker.SplitState)
    (hst : idxInv startIndex st) (block : List Chunk)
    (hb : block.map Chunk.index = List.range' st.chunkIndex block.length) :
    (st.chunks ++ block).map Chunk.index =
      List.range' startIndex (st.chunks ++ block).length ∧
    st.chunkIndex + block.length = startIndex + (st.chunks ++ block).length := by
  obtain ⟨h1, h2⟩ := hst
  constructor
  · rw [List.map_append, h1, hb, h2, List.length_append]
    exact range'_glue startIndex st.chunks.length block.length
  · rw [List.length_append]
    omega

theorem sbsPushCur_idx (heading : Option String) (startIndex : ℕ)
    (st : TextChunker.SplitState) (hst : idxInv startIndex st) :
    idxInv startIndex (TextChunker.sbsPushCur heading st) := by
  unfold TextChunker.sbsPushCur
  by_cases he : st.currentChunk.data.isEmpty = true
  · simp only [he, if_true]
    exact hst
  · simp only [he, Bool.false_eq_true, if_false]
    exact idxInv_push startIndex st hst _ rfl

theorem sbsStep_idx (heading : Option String) (maxSize startIndex : ℕ)
    (st : TextChunker.SplitState) (sentence : String) (hst : idxInv startIndex st) :
    idxInv startIndex (TextChunker.sbsStep heading maxSize st sentence) := by
  unfold TextChunker.sbsStep
  by_cases h1 : st.currentChunk.length + sentence.length + 1 ≤ maxSize
  · simp only [if_pos h1]
    exact hst
  · simp only [if_neg h1]
    have hst1 := sbsPushCur_idx heading startIndex st hst
    by_cases h2 : maxSize < sentence.length
    · simp only [if_pos h2]
      exact idxInv_append_block startIndex _ hst1 _
        (splitByWords_idx sentence heading _ maxSize _)
    · simp only [if_neg h2]
      exact hst1

theorem foldl_sbsStep_idx (heading : Option String) (maxSize startIndex : ℕ)
    (sentences : List String) (st : TextChunker.SplitState)
    (hst : idxInv startIndex st) :
    idxInv startIndex (sentences.foldl (TextChunker.sbsStep heading maxSize) st) := by
  induction sentences generalizing st with
  | nil => simpa using hst
  | cons s ss ih =>
      simp only [List.foldl_cons]
      exact ih _ (sbsStep_idx heading maxSize startIndex st s hst)

theorem splitBySentences_idx (text : String) (heading : Option String)
    (baseOffset maxSize startIndex : ℕ) :
    (TextChunker.splitBySentences text heading baseOffset maxSize startIndex).map
        Chunk.index =
      List.range' startIndex
        (TextChunker.splitBySentences text heading baseOffset maxSize startIndex).length := by
  unfold TextChunker.splitBySentences
  have hinv := foldl_sbsStep_idx heading maxSize startIndex (jsSplitSentences text)
    ⟨[], "", baseOffset, startIndex⟩ ⟨by simp, by simp⟩
  set st := (jsSplitSentences text).foldl (TextChunker.sbsStep heading maxSize)
    ⟨[], "", baseOffset, startIndex⟩ with hstdef
  by_cases he : st.currentChunk.data.isEmpty = true
  · simp only [he, if_true]
    exact hinv.1
  · simp only [he, Bool.false_eq_true, if_false]
    exact (idxInv_push startIndex st hinv _ rfl).1

theorem slsAppend_idx (startIndex : ℕ) (st : TextChunker.SplitState) (p : String)
    (hst : idxInv startIndex st) :
    idxInv startIndex (TextChunker.slsAppend st p) := hst

theorem slsPush_idx (heading : Option String) (overlap startIndex : ℕ)
    (st : TextChunker.SplitState) (p : String) (hst : idxInv startIndex st) :
    idxInv startIndex (TextChunker.slsPush heading overlap st p) := by
  unfold TextChunker.slsPush
  exact idxInv_push startIndex st hst _ rfl

theorem slsOverflow_idx (heading : Option String) (maxSize startIndex : ℕ)
    (st1 : TextChunker.SplitState) (hst : idxInv startIndex st1) :
    idxInv startIndex (TextChunker.slsOverflow heading maxSize st1) := by
  unfold TextChunker.slsOverflow
  by_cases h2 : maxSize < st1.currentChunk.length
  · simp only [if_pos h2]
    exact idxInv_append_block startIndex st1 hst _
      (splitBySentences_idx st1.currentChunk heading _ maxSize _)
  · simp only [if_neg h2]
    exact hst

theorem slsStep_idx (heading : Option String) (maxSize minSize overlap startIndex : ℕ)
    (st : TextChunker.SplitState) (para : String) (hst : idxInv startIndex st) :
    idxInv startIndex (TextChunker.slsStep heading maxSize minSize overlap st para) := by
  unfold TextChunker.slsStep
  by_cases h0 : (jsTrim para).data.isEmpty = true
  · simp only [h0, if_true]
    exact hst
  · simp only [h0, Bool.false_eq_true, if_false]
    by_cases h1 : st.currentChunk.length + (jsTrim para).length + 2 ≤ maxSize
    · simp only [if_pos h1]
      exact slsAppend_idx startIndex st _ hst
    · simp only [if_neg h1]
      apply slsOverflow_idx
      by_cases hm : minSize ≤ st.currentChunk.length
      · simp only [hm, if_true]
        exact slsPush_idx heading overlap startIndex st _ hst
      · simp only [hm, if_false]
        exact slsAppend_idx startIndex st _ hst

theorem foldl_slsStep_idx (heading : Option String)
    (maxSize minSize overlap startIndex : ℕ) (paras : List String)
    (st : TextChunker.SplitState) (hst : idxInv startIndex st) :
    idxInv startIndex
      (paras.foldl (TextChunker.slsStep heading maxSize minSize overlap) st) := by
  induction paras generalizing st with
  | nil => simpa using hst
  | cons p ps ih =>
      simp only [List.foldl_cons]
      exact ih _ (slsStep_idx heading maxSize minSize overlap startIndex st p hst)

theorem slsFinish_idx (heading : Option String) (maxSize minSize startIndex : ℕ)
    (st : TextChunker.SplitState) (hst : idxInv startIndex st) :
    (TextChunker.slsFinish heading maxSize minSize st).map Chunk.index =
      List.range' startIndex (TextChunker.slsFinish heading maxSize minSize st).length := by
  unfold TextChunker.slsFinish
  by_cases hm : minSize ≤ st.currentChunk.length
  · simp only [hm, if_true]
    exact (idxInv_push startIndex st hst _ rfl).1
  · simp only [hm, if_false]
    by_cases he : st.currentChunk.data.isEmpty = true
    · simp only [he, if_true]
      exact hst.1
    · simp only [he, Bool.false_eq_true, if_false]
      rcases hlast : st.chunks.getLast? with _ | lastChunk
      · simp only [hlast]
        exact hst.1
      · simp only [hlast]
        by_cases hfit : lastChunk.content.length + st.currentChunk.length ≤ maxSize
        · simp only [hfit, if_true]
          have hsplit : st.chunks.dropLast ++ [lastChunk] = st.chunks :=
            List.dropLast_append_getLast? lastChunk (by rw [hlast]; rfl)
          have hlen : (st.chunks.dropLast ++
              [{ lastChunk with
                content := lastChunk.content ++ "\n\n" ++ st.currentChunk,
                endOffset := lastChunk.startOffset +
                  (lastChunk.content ++ "\n\n" ++ st.currentChunk).length }]).length =
              st.chunks.length := by
            rw [← hsplit]
            simp
          rw [hlen]
          have hmap : (st.chunks.dropLast ++
              [{ lastChunk with
                content := lastChunk.content ++ "\n\n" ++ st.currentChunk,
                endOffset := lastChunk.startOffset +
                  (lastChunk.content ++ "\n\n" ++ st.currentChunk).length }]).map
              Chunk.index = st.chunks.map Chunk.index := by
            conv_rhs => rw [← hsplit]
            simp
          rw [hmap]
          exact hst.1
        · simp only [hfit, if_false]
          exact (idxInv_push startIndex st hst _ rfl).1

theorem splitLargeSection_idx (text : String) (heading : Option String)
    (baseOffset maxSize minSize overlap startIndex : ℕ) :
    (TextChunker.splitLargeSection text heading baseOffset maxSize minSize
        overlap startIndex).map Chunk.index =
      List.range' startIndex
        (TextChunker.splitLargeSection text heading baseOffset maxSize minSize
          overlap startIndex).length := by
  unfold TextChunker.splitLargeSection
  exact slsFinish_idx heading maxSize minSize startIndex _
    (foldl_slsStep_idx heading maxSize minSize overlap startIndex
      (jsSplitParas text) ⟨[], "", baseOffset, startIndex⟩ ⟨by simp, by simp⟩)

/-- Index invariant of the per-section loop of `chunk`. -/
def accIdx (acc : List Chunk × ℕ) : Prop :=
  acc.1.map Chunk.index = List.range' 0 acc.1.length ∧ acc.2 = acc.1.length

theorem chunkSectionStep_accIdx (maxSize minSize overlap : ℕ)
    (acc : List Chunk × ℕ) (sec : DocSection) (hacc : accIdx acc) :
    accIdx (TextChunker.chunkSectionStep maxSize minSize overlap acc sec) := by
  obtain ⟨h1, h2⟩ := hacc
  unfold TextChunker.chunkSectionStep
  by_cases h : sec.content.length ≤ maxSize
  · simp only [if_pos h]
    constructor
    · rw [List.map_append, h1]
      simp only [List.map_cons, List.map_nil, List.length_append, List.length_cons,
        List.length_nil]
      rw [h2]
      have := range'_snoc 0 acc.1.length
      simpa using this
    · simp only [List.length_append, List.length_cons, List.length_nil]
      omega
  · simp only [if_neg h]
    have hb := splitLargeSection_idx sec.content sec.heading sec.startOffset
      maxSize minSize overlap acc.2
    constructor
    · rw [List.map_append, h1, List.length_append]
      rw [h2] at hb
      rw [h2, hb]
      simpa using range'_glue 0 acc.1.length _
    · simp only [List.length_append]
      omega

theorem foldl_chunkSectionStep_accIdx (maxSize minSize overlap : ℕ)
    (sections : List DocSection) (acc : List Chunk × ℕ) (hacc : accIdx acc) :
    accIdx (sections.foldl (TextChunker.chunkSectionStep maxSize minSize overlap) acc) := by
  induction sections generalizing acc with
  | nil => simpa using hacc
  | cons s ss ih =>
      simp only [List.foldl_cons]
      exact ih _ (chunkSectionStep_accIdx maxSize minSize overlap acc s hacc)

theorem reindexFrom_map_idx :
    ∀ (k : ℕ) (l : List Chunk),
      (TextChunker.reindexFrom k l).map Chunk.index = List.range' k l.length := by
  intro k l
  induction l generalizing k with
  | nil => simp [TextChunker.reindexFrom]
  | cons c rest ih =>
      simp only [TextChunker.reindexFrom, List.map_cons, List.length_cons]
      rw [List.range'_succ, ih (k + 1)]

theorem reindexFrom_length (k : ℕ) (l : List Chunk) :
    (TextChunker.reindexFrom k l).length = l.length := by
  induction l generalizing k with
  | nil => simp [TextChunker.reindexFrom]
  | cons c rest ih =>
      simp only [TextChunker.reindexFrom, List.length_cons, ih]

/-- C8: the chunk list returned by `TextChunker.chunk` carries index
values forming exactly the contiguous range `0..N-1` in emission order:
`mergeSmallChunks` reindexes lists of length > 1, the single-chunk and
empty cases already carry the correct indices from the emission
counter. -/
theorem C8_chunk_index_density (content : ExtractedContent) (opts : ChunkOptions) :
    (TextChunker.chunk content opts).map Chunk.index =
      List.range (TextChunker.chunk content opts).length := by
  unfold TextChunker.chunk
  by_cases h : content.content.length ≤ opts.maxChunkSize
  · simp [h, List.range_succ]
  · simp only [if_neg h]
    have hacc := foldl_chunkSectionStep_accIdx opts.maxChunkSize opts.minChunkSize
      opts.overlap (TextChunker.splitByHeadings content.content content.headings)
      ([], 0) ⟨by simp, by simp⟩
    unfold TextChunker.mergeSmallChunks
    by_cases hlen : ((TextChunker.splitByHeadings content.content content.headings).foldl
        (TextChunker.chunkSectionStep opts.maxChunkSize opts.minChunkSize opts.overlap)
        ([], 0)).1.length ≤ 1
    · simp only [if_pos hlen]
      rw [hacc.1, List.range_eq_range']
    · simp only [if_neg hlen]
      rw [reindexFrom_map_idx, reindexFrom_length, List.range_eq_range']

/-! ## Search result shaping (`crawler/indexer.ts`)

`createFormattedSnippet`, `truncateContent`, `formatBreadcrumb` and the
character-budget filter `formatAndBudgetResults`. -/

/-- A search result as consumed by the formatting layer. -/
structure SearchResult where
  chunkId : String
  pageId : String
  docsetId : String
  url : String
  title : Option String
  heading : Option String
  content : String
  score : ℝ

/-- `FormattedSnippet`. -/
structure FormattedSnippet where
  formatted : String
  title : Option String
  url : String
  breadcrumb : Option String
  content : String
  charCount : ℕ

/-- `EnhancedSearchResult`: the result plus its optional snippet. -/
structure EnhancedSearchResult where
  result : SearchResult
  snippet : Option FormattedSnippet

/-- `l.lastIndexOf(pat, fromIdx)` for a non-empty pattern: the largest
start position `≤ fromIdx` where `pat` occurs, if any. -/
def lastIndexOfFrom (l pat : List Char) (fromIdx : ℕ) : Option ℕ :=
  ((List.range (l.length + 1)).filter
    (fun i => decide (i ≤ fromIdx) && pat.isPrefixOf (l.drop i))).getLast?

/-- `s.split(sep)` for a single-character separator. -/
def splitOnCharAux : List Char → Char → List Char → List (List Char)
  | [], _, cur => [cur.reverse]
  | c :: cs, sep, cur =>
      if c = sep then cur.reverse :: splitOnCharAux cs sep []
      else splitOnCharAux cs sep (c :: cur)

/-- `p.replace(/\b\w/g, c => c.toUpperCase())`: upper-case every word
character at a word boundary. -/
def capitalizeAux : List Char → Bool → List Char
  | [], _ => []
  | c :: cs, prevWord =>
      (if isJsWordChar c && !prevWord then c.toUpper else c) ::
        capitalizeAux cs (isJsWordChar c)

namespace IndexerOrchestrator

/-- The sentence-boundary stage of `truncateContent`. -/
def truncateContentSentence (content : String) (maxChars : ℕ) : String :=
  let d := content.data
  let lastSentenceEnd : ℤ := [". ", "! ", "? "].foldl
    (fun best ender =>
      match lastIndexOfFrom d ender.data maxChars with
      | none => best
      | some pos => if best < (pos : ℤ) then (pos : ℤ) + 1 else best)
    (-1)
  if (maxChars : ℤ) < 2 * lastSentenceEnd then
    strSlice content 0 lastSentenceEnd.toNat ++ "..."
  else
    let lastSpace := lastIndexOfFrom d " ".data maxChars
    match lastSpace with
    | some ls =>
        if 7 * maxChars < 10 * ls then strSlice content 0 ls ++ "..."
        else strSlice content 0 (maxChars - 3) ++ "..."
    | none => strSlice content 0 (maxChars - 3) ++ "..."


/-- `truncateContent(content, maxChars)`: truncate at a paragraph, then
sentence, then word boundary, else hard-truncate (fractional thresholds
`maxChars * 0.5` and `maxChars * 0.7` are written cross-multiplied; the
sentence scan keeps JS's `-1` sentinel as an integer). -/
def truncateContent (content : String) (maxChars : ℕ) : String :=
  if content.length ≤ maxChars then content
  else
    let d := content.data
    let paragraphEnd := lastIndexOfFrom d "\n\n".data maxChars
    match paragraphEnd with
    | some pe =>
        if 2 * pe > maxChars then strSlice content 0 pe ++ "\n..."
        else truncateContentSentence content maxChars
    | none => truncateContentSentence content maxChars

/-- `formatBreadcrumb(heading, url)`: prefix the heading with up to two
capitalised path segments unless the heading already mentions the last
one; an unparsable URL returns the heading. -/
def formatBreadcrumb (heading url : String) : String :=
  match parseUrl url with
  | none => heading
  | some u =>
      let pathParts := (splitOnCharAux u.pathname.data '/' []).filter
        (fun p => !p.isEmpty && p ≠ "docs".data && p ≠ "api".data)
      if 0 < pathParts.length then
        let segs := pathParts.map (fun p =>
          String.mk (capitalizeAux (p.map (fun c => if c = '-' then ' ' else c)) false))
        let pathContext := String.intercalate " > " (segs.drop (segs.length - 2))
        let lastPart := (pathParts.getLast?.map String.mk).getD ""
        if !strIncludes heading.toLower lastPart.toLower then
          pathContext ++ " > " ++ heading
        else heading
      else heading

/-- `createFormattedSnippet(result, maxChars)`: header lines (the empty
line in the source array is removed by its own `filter(Boolean)`), a
content budget of at least 100 characters after header overhead, and
the total character count of the formatted text. -/
def createFormattedSnippet (result : SearchResult) (maxChars : ℕ) : FormattedSnippet :=
  let title := result.title.getD "Untitled"
  let url := result.url
  let breadcrumb := result.heading.map (fun h => formatBreadcrumb h url)
  let headerLines := ["## " ++ title, "Source: " ++ url] ++
    (match breadcrumb with
     | some b => ["Section: " ++ b]
     | none => [])
  let header := String.intercalate "\n" headerLines
  let headerChars := header.length
  let contentBudget := max 100 (maxChars - headerChars - 10)
  let truncatedContent := truncateContent result.content contentBudget
  let formatted := header ++ truncatedContent
  ⟨formatted, result.title, url, breadcrumb, truncatedContent, formatted.length⟩

/-- The character count the budget filter charges for a result:
`snippet?.charCount ?? result.content.length`. -/
def resultCharCount (er : EnhancedSearchResult) : ℕ :=
  match er.snippet with
  | some s => s.charCount
  | none => er.result.content.length

/-- The snippet attached to a result: present only when `formatSnippets`
is on. -/
def snippetFor (formatSnippets : Bool) (maxChars : ℕ) (result : SearchResult) :
    Option FormattedSnippet :=
  if formatSnippets then some (createFormattedSnippet result maxChars) else none

/-- The loop of `formatAndBudgetResults`: admit results while the
running total stays within `maxTotalChars`; on overflow (with at least
one admitted result) include one final result only when at least 200
characters of budget remain, with a snippet sized to the remaining
budget when snippets are on, then stop.  The charge of a result is
`snippet?.charCount ?? result.content.length` (`resultCharCount`). -/
def budgetLoop (formatSnippets : Bool) (snippetMaxChars maxTotalChars : ℕ) :
    List SearchResult → List EnhancedSearchResult → ℕ → List EnhancedSearchResult
  | [], acc, _ => acc
  | result :: rest, acc, totalChars =>
      if maxTotalChars < totalChars +
          resultCharCount ⟨result, snippetFor formatSnippets snippetMaxChars result⟩ ∧
          0 < acc.length then
        if 200 ≤ maxTotalChars - totalChars then
          acc ++ [⟨result, snippetFor formatSnippets (maxTotalChars - totalChars) result⟩]
        else acc
      else
        budgetLoop formatSnippets snippetMaxChars maxTotalChars rest
          (acc ++ [⟨result, snippetFor formatSnippets snippetMaxChars result⟩])
          (totalChars +
            resultCharCount ⟨result, snippetFor formatSnippets snippetMaxChars result⟩)

/-- `formatAndBudgetResults(results, formatSnippets, snippetMaxChars,
maxTotalChars)`. -/
def formatAndBudgetResults (results : List SearchResult) (formatSnippets : Bool)
    (snippetMaxChars maxTotalChars : ℕ) : List EnhancedSearchResult :=
  budgetLoop formatSnippets snippetMaxChars maxTotalChars results [] 0

end IndexerOrchestrator

/-! ### C4: the character budget -/

theorem budgetLoop_dropLast_bound (formatSnippets : Bool)
    (snippetMaxChars maxTotalChars : ℕ) (rest : List SearchResult) :
    ∀ (acc : List EnhancedSearchResult) (totalChars : ℕ),
      totalChars = (acc.map IndexerOrchestrator.resultCharCount).sum →
      (acc.dropLast.map IndexerOrchestrator.resultCharCount).sum ≤ maxTotalChars →
      (((IndexerOrchestrator.budgetLoop formatSnippets snippetMaxChars maxTotalChars
          rest acc totalChars).dropLast).map
        IndexerOrchestrator.resultCharCount).sum ≤ maxTotalChars := by
  induction rest with
  | nil =>
      intro acc total h1 h2
      simpa [IndexerOrchestrator.budgetLoop] using h2
  | cons r rs ih =>
      intro acc total h1 h2
      unfold IndexerOrchestrator.budgetLoop
      by_cases hov : maxTotalChars < total +
          IndexerOrchestrator.resultCharCount
            ⟨r, IndexerOrchestrator.snippetFor formatSnippets snippetMaxChars r⟩ ∧
          0 < acc.length
      · simp only [if_pos hov]
        by_cases hrem : 200 ≤ maxTotalChars - total
        · simp only [if_pos hrem]
          rw [List.dropLast_concat]
          omega
        · simp only [if_neg hrem]
          exact h2
      · simp only [if_neg hov]
        apply ih
        · rw [List.map_append, List.sum_append, ← h1]
          simp
        · rw [List.dropLast_concat]
          rcases Nat.lt_or_ge maxTotalChars (total +
              IndexerOrchestrator.resultCharCount
                ⟨r, IndexerOrchestrator.snippetFor formatSnippets snippetMaxChars r⟩)
            with hlt | hle
          · have hacc : acc.length = 0 := by
              by_contra hne
              exact hov ⟨hlt, by omega⟩
            have hnil : acc = [] := List.length_eq_zero.mp hacc
            subst hnil
            simp
          · omega

/-- C4 (amended): the sum of charged characters
(`snippet.charCount`, or `content.length` when snippets are off) over
all but the last returned result is ≤ `maxTotalChars`; the final result
may exceed the budget: a first result is always admitted, and on
overflow one more result is included whenever at least 200 characters
of budget remain — regardless of `formatSnippets` (with snippets off it
is included with its full content) — and then iteration stops. -/
theorem C4_budget_bound (results : List SearchResult) (formatSnippets : Bool)
    (snippetMaxChars maxTotalChars : ℕ) :
    (((IndexerOrchestrator.formatAndBudgetResults results formatSnippets
        snippetMaxChars maxTotalChars).dropLast).map
      IndexerOrchestrator.resultCharCount).sum ≤ maxTotalChars := by
  unfold IndexerOrchestrator.formatAndBudgetResults
  exact budgetLoop_dropLast_bound formatSnippets snippetMaxChars maxTotalChars
    results [] 0 (by simp) (by simp)

/-- A search result with `n` characters of content. -/
def c4r (id : String) (n : ℕ) : SearchResult :=
  ⟨id, "p", "d", "http://e/x", none, none, String.mk (List.replicate n 'a'), 0⟩

set_option maxRecDepth 4000 in
/-- C4 (counterexample): with snippets **off**, `maxTotalChars = 300`
and results of 50 and 600 characters, the second result overflows the
budget but 250 ≥ 200 characters remain, so it is admitted **with its
full 600-character content** (no snippet, no truncation): the output
charges 650 > 300 characters over two results — refuting both the
budget sum bound and "included only if … formatSnippets is on, as a
truncated snippet". -/
theorem C4_counterexample :
    ((IndexerOrchestrator.formatAndBudgetResults [c4r "c1" 50, c4r "c2" 600]
        false 500 300).map IndexerOrchestrator.resultCharCount).sum = 650 ∧
    (IndexerOrchestrator.formatAndBudgetResults [c4r "c1" 50, c4r "c2" 600]
        false 500 300).length = 2 := by
  constructor
  · rfl
  · rfl

/-! ## Indexer orchestrator: `indexPage` (`crawler/indexer.ts`)

The SQLite metadata store (`storage/metadata.ts`) is modelled as the
page row the call targets plus the chunk rows and their FTS mirror
(`chunks_fts` and `chunks_fts_meta` collapsed into one row type); the
vector store is the `StoreState` model above.  SHA-256, the embedding
provider, the link-discovery crawler and the UUID generator enter as
oracle parameters. -/

/-- Page lifecycle states. -/
inductive PageStatus where
  | pending
  | fetching
  | fetched
  | indexing
  | indexed
  | error
  | skipped
deriving DecidableEq, Repr

/-- A row of the `pages` table. -/
structure PageRecord where
  id : String
  docsetId : String
  url : String
  path : String
  title : Option String
  contentHash : Option String
  fetchedAt : Option ℕ
  indexedAt : Option ℕ
  status : PageStatus
  errorMessage : Option String
  etag : Option String
  lastModified : Option String
  retryCount : ℕ
  lastAttemptAt : Option ℕ
deriving DecidableEq, Repr

/-- `Partial<PageRecord>` for `updatePage`: an outer `none` is an absent
(undefined) field, which `updatePage` skips. -/
structure PageUpdates where
  title : Option (Option String) := none
  contentHash : Option (Option String) := none
  fetchedAt : Option (Option ℕ) := none
  indexedAt : Option (Option ℕ) := none
  status : Option PageStatus := none
  errorMessage : Option (Option String) := none
  etag : Option (Option String) := none
  lastModified : Option (Option String) := none
  retryCount : Option ℕ := none
  lastAttemptAt : Option (Option ℕ) := none

/-- `updatePage`: set exactly the present fields. -/
def applyPageUpdates (p : PageRecord) (u : PageUpdates) : PageRecord :=
  { p with
    title := u.title.getD p.title,
    contentHash := u.contentHash.getD p.contentHash,
    fetchedAt := u.fetchedAt.getD p.fetchedAt,
    indexedAt := u.indexedAt.getD p.indexedAt,
    status := u.status.getD p.status,
    errorMessage := u.errorMessage.getD p.errorMessage,
    etag := u.etag.getD p.etag,
    lastModified := u.lastModified.getD p.lastModified,
    retryCount := u.retryCount.getD p.retryCount,
    lastAttemptAt := u.lastAttemptAt.getD p.lastAttemptAt }

/-- A row of the `chunks` table. -/
structure ChunkRecord where
  id : String
  pageId : String
  docsetId : String
  content : String
  heading : Option String
  startOffset : ℕ
  endOffset : ℕ
  chunkIndex : ℕ
  embeddingId : Option String
  createdAt : ℕ
deriving DecidableEq, Repr

/-- A row of the FTS mirror (`chunks_fts` with its `chunks_fts_meta`). -/
structure FtsRow where
  chunkId : String
  docsetId : String
  pageId : String
  url : String
  title : Option String
  heading : Option String
  content : String
deriving DecidableEq, Repr

/-- The store state `indexPage` reads and writes. -/
structure IndexerState where
  page : PageRecord
  chunks : List ChunkRecord
  fts : List FtsRow
  vectors : StoreState

/-- `updatePage(page.id, u)` on the targeted row. -/
def updatePageState (s : IndexerState) (u : PageUpdates) : IndexerState :=
  { s with page := applyPageUpdates s.page u }

/-- JS truthiness of a nullable string column. -/
def isTruthyOpt (o : Option String) : Bool :=
  match o with
  | some s => !s.data.isEmpty
  | none => false

namespace IndexerOrchestrator

/-- `docset-${docsetId}`. -/
def getNamespace (docsetId : String) : String := "docset-" ++ docsetId

/-- `/^HTTP (401|403|404)\b/.test(msg)`: the message starts with
`HTTP 401`, `HTTP 403` or `HTTP 404` followed by a non-word character
or the end. -/
def isSkippableError (msg : String) : Bool :=
  ["HTTP 401", "HTTP 403", "HTTP 404"].any (fun p =>
    strStartsWith msg p &&
      (match msg.data.drop p.length with
       | [] => true
       | c :: _ => !isJsWordChar c))

/-- The catch block of `indexPage`: classify, store the message,
increment the retry counter (from the in-memory record). -/
def handleIndexError (page : PageRecord) (msg : String) : PageUpdates :=
  { status := some (if isSkippableError msg then .skipped else .error)
    errorMessage := some (some msg)
    retryCount := some (page.retryCount + 1) }

/-- `indexPage(docset, page)`.  `fetchOutcome`/`extractOutcome` are the
results of `fetcher.fetch` and `extractor.extract` (`Except.error` = a
thrown exception, routed to the catch block); `sha256` hashes a body;
`discover` is `crawler.discoverLinks` (it only creates further page
rows); `embed` is the embedding provider; `freshIds` supplies
`randomUUID` chunk ids; `now` is `Date.now()`. -/
def indexPage (docsetId : String) (s0 : IndexerState)
    (fetchOutcome : Except String FetchResult)
    (extractOutcome : Except String ExtractedContent)
    (sha256 : String → String)
    (discover : IndexerState → IndexerState)
    (embed : List String → List (List ℝ))
    (freshIds : List String) (now : ℕ) : IndexerState :=
  let ns := getNamespace docsetId
  let page := s0.page
  let s := updatePageState s0 { status := some .fetching, lastAttemptAt := some (some now) }
  match fetchOutcome with
  | .error msg => updatePageState s (handleIndexError page msg)
  | .ok fr =>
      if fr.statusCode = 304 ∧ fr.fromCache = true ∧ isTruthyOpt page.contentHash = true then
        updatePageState s { status := some .indexed, fetchedAt := some (some now) }
      else
        let contentHash := sha256 fr.content
        if page.contentHash = some contentHash then
          updatePageState s
            { status := some .indexed
              fetchedAt := some (some now)
              etag := some fr.etag
              lastModified := some fr.lastModified }
        else
          let s := updatePageState s
            { status := some .fetched
              fetchedAt := some (some now)
              contentHash := some (some contentHash)
              etag := some fr.etag
              lastModified := some fr.lastModified }
          match extractOutcome with
          | .error msg => updatePageState s (handleIndexError page msg)
          | .ok extracted =>
              let s := updatePageState s
                { title := some (some extracted.title)
                  status := some .indexing }
              let s := discover s
              let existingChunks := s.chunks.filter (fun c => c.pageId = page.id)
              let s := if 0 < existingChunks.length then
                  { s with
                    vectors := LocalVectorStore.deleteIds s.vectors ns
                      (existingChunks.map (fun c => c.id)) }
                else s
              let s := { s with
                chunks := s.chunks.filter (fun c => ¬ c.pageId = page.id)
                fts := s.fts.filter (fun f => ¬ f.pageId = page.id) }
              let chunks := TextChunker.chunk extracted {}
              if chunks.length = 0 then
                updatePageState s { status := some .indexed, indexedAt := some (some now) }
              else
                let chunkRecords : List ChunkRecord :=
                  (chunks.zip (freshIds.take chunks.length)).map
                  (fun ci => ⟨ci.2, page.id, docsetId, ci.1.content, ci.1.heading,
                    ci.1.startOffset, ci.1.endOffset, ci.1.index, none, now⟩)
                let s := { s with
                  chunks := s.chunks ++ chunkRecords
                  fts := s.fts ++ chunkRecords.map (fun (c : ChunkRecord) =>
                    (⟨c.id, docsetId, page.id, s.page.url, s.page.title,
                      c.heading, c.content⟩ : FtsRow)) }
                let embeddings := embed (chunkRecords.map (fun (c : ChunkRecord) => c.content))
                let vectors : List EmbeddingVector := (chunkRecords.zip embeddings).map
                  (fun cv => ⟨cv.1.id, cv.2,
                    ⟨docsetId, page.id, cv.1.id, page.url, some extracted.title,
                      cv.1.heading, cv.1.content⟩⟩)
                let s := { s with vectors := LocalVectorStore.upsert s.vectors ns vectors }
                let s := { s with
                  chunks := s.chunks.map (fun (c : ChunkRecord) =>
                    if (chunkRecords.map (fun (cr : ChunkRecord) => cr.id)).contains c.id then
                      { c with embeddingId := some c.id }
                    else c) }
                updatePageState s { status := some .indexed, indexedAt := some (some now) }

end IndexerOrchestrator

/-! ### C2: error classification in `indexPage` -/

/-- C2 (amended): when `indexPage` catches an exception, the page ends
`skipped` exactly when the message matches `^HTTP (401|403|404)\b` and
`error` otherwise; **both** branches store the error message and both
increment `retry_count` by one (the update object is shared by the two
branches). -/
theorem C2_error_classification (docsetId : String) (s0 : IndexerState)
    (msg : String) (extractOutcome : Except String ExtractedContent)
    (sha256 : String → String) (discover : IndexerState → IndexerState)
    (embed : List String → List (List ℝ)) (freshIds : List String) (now : ℕ) :
    (IndexerOrchestrator.indexPage docsetId s0 (.error msg) extractOutcome
        sha256 discover embed freshIds now).page.status =
      (if IndexerOrchestrator.isSkippableError msg then .skipped else .error) ∧
    (IndexerOrchestrator.indexPage docsetId s0 (.error msg) extractOutcome
        sha256 discover embed freshIds now).page.errorMessage = some msg ∧
    (IndexerOrchestrator.indexPage docsetId s0 (.error msg) extractOutcome
        sha256 discover embed freshIds now).page.retryCount =
      s0.page.retryCount + 1 :=
  ⟨rfl, rfl, rfl⟩

/-- A concrete page record in the `pending` state. -/
def c2page : PageRecord :=
  ⟨"pg1", "ds1", "https://e/docs/a", "/docs/a", none, none, none, none,
    .pending, none, none, none, 0, none⟩

/-- A concrete pre-call state. -/
def c2state : IndexerState := ⟨c2page, [], [], []⟩

/-- C2 (counterexample): an exception `HTTP 404: Not Found` marks the
page `skipped` **and** increments `retry_count` from 0 to 1 — the
skipped branch does increment `retry_count`, refuting "the skipped
branch does not increment retry_count". -/
theorem C2_counterexample :
    (IndexerOrchestrator.indexPage "ds1" c2state (.error "HTTP 404: Not Found")
        (.error "") id id (fun _ => []) [] 7).page.status = .skipped ∧
    (IndexerOrchestrator.indexPage "ds1" c2state (.error "HTTP 404: Not Found")
        (.error "") id id (fun _ => []) [] 7).page.retryCount = 1 := by
  constructor
  · rfl
  · rfl

/-! ### C5: incremental short-circuit frame -/

/-- C5: when the fetch returns 304-from-cache for a page with a stored
content hash, or the SHA-256 of the fetched body equals the stored
hash, `indexPage` marks the page `indexed` and returns, leaving the
chunk rows, the FTS mirror rows, the vector namespace contents and the
stored content hash unchanged (no re-chunking, no re-embedding). -/
theorem C5_incremental_short_circuit_frame (docsetId : String) (s0 : IndexerState)
    (fr : FetchResult) (extractOutcome : Except String ExtractedContent)
    (sha256 : String → String) (discover : IndexerState → IndexerState)
    (embed : List String → List (List ℝ)) (freshIds : List String) (now : ℕ)
    (h : (fr.statusCode = 304 ∧ fr.fromCache = true ∧
        isTruthyOpt s0.page.contentHash = true) ∨
      s0.page.contentHash = some (sha256 fr.content)) :
    (IndexerOrchestrator.indexPage docsetId s0 (.ok fr) extractOutcome
        sha256 discover embed freshIds now).chunks = s0.chunks ∧
    (IndexerOrchestrator.indexPage docsetId s0 (.ok fr) extractOutcome
        sha256 discover embed freshIds now).fts = s0.fts ∧
    (IndexerOrchestrator.indexPage docsetId s0 (.ok fr) extractOutcome
        sha256 discover embed freshIds now).vectors = s0.vectors ∧
    (IndexerOrchestrator.indexPage docsetId s0 (.ok fr) extractOutcome
        sha256 discover embed freshIds now).page.contentHash = s0.page.contentHash ∧
    (IndexerOrchestrator.indexPage docsetId s0 (.ok fr) extractOutcome
        sha256 discover embed freshIds now).page.status = .indexed := by
  by_cases h304 : fr.statusCode = 304 ∧ fr.fromCache = true ∧
      isTruthyOpt s0.page.contentHash = true
  · simp only [IndexerOrchestrator.indexPage, if_pos h304]
    exact ⟨rfl, rfl, rfl, rfl, rfl⟩
  · have hhash : s0.page.contentHash = some (sha256 fr.content) := by
      rcases h with ha | hb
      · exact absurd ha h304
      · exact hb
    simp only [IndexerOrchestrator.indexPage, if_neg h304, if_pos hhash]
    exact ⟨rfl, rfl, rfl, rfl, rfl⟩

/-- A concrete page whose stored hash matches the body to be fetched
(with the identity function standing in for SHA-256). -/
def c5page : PageRecord :=
  ⟨"pg1", "ds1", "https://e/docs/a", "/docs/a", some "T", some "the body",
    some 3, some 3, .pending, none, none, none, 0, none⟩

/-- A pre-call state holding one chunk row, its FTS mirror row and one
stored vector. -/
def c5state : IndexerState :=
  ⟨c5page,
   [⟨"ck1", "pg1", "ds1", "old chunk", none, 0, 9, 0, some "ck1", 3⟩],
   [⟨"ck1", "ds1", "pg1", "https://e/docs/a", some "T", none, "old chunk"⟩],
   [("docset-ds1", ⟨[⟨"ck1", [0], ⟨"ds1", "pg1", "ck1", "https://e/docs/a",
     some "T", none, "old chunk"⟩⟩], 1⟩)]⟩

/-- A fetch result whose body hashes (under `id`) to the stored hash. -/
def c5fetch : FetchResult :=
  ⟨"https://e/docs/a", "the body", "text/html", none, none, 200, false⟩

/-- Witness for `C5_incremental_short_circuit_frame`: the hash-match
hypothesis discharged at a concrete state. -/
theorem C5_incremental_short_circuit_frame_witness :
    ((c5fetch.statusCode = 304 ∧ c5fetch.fromCache = true ∧
        isTruthyOpt c5state.page.contentHash = true) ∨
      c5state.page.contentHash = some (id c5fetch.content)) ∧
    (IndexerOrchestrator.indexPage "ds1" c5state (.ok c5fetch) (.error "")
        id id (fun _ => []) [] 9).chunks = c5state.chunks ∧
    (IndexerOrchestrator.indexPage "ds1" c5state (.ok c5fetch) (.error "")
        id id (fun _ => []) [] 9).page.contentHash = c5state.page.contentHash ∧
    (IndexerOrchestrator.indexPage "ds1" c5state (.ok c5fetch) (.error "")
        id id (fun _ => []) [] 9).page.status = .indexed := by
  have h : ((c5fetch.statusCode = 304 ∧ c5fetch.fromCache = true ∧
      isTruthyOpt c5state.page.contentHash = true) ∨
      c5state.page.contentHash = some (id c5fetch.content)) := Or.inr rfl
  have hmain := C5_incremental_short_circuit_frame "ds1" c5state c5fetch (.error "")
    id id (fun _ => []) [] 9 h
  exact ⟨h, hmain.1, hmain.2.2.2.1, hmain.2.2.2.2⟩

/-! ## Vector search (`src/storage/vector-store.ts`: `search`,
`cosineSimilarity`) -/

/-- The dot-product accumulation of `cosineSimilarity`'s loop. -/
noncomputable def dotList (a b : List ℝ) : ℝ :=
  ((a.zip b).map (fun p => p.1 * p.2)).sum

/-- The sum of squares over `ℝ`. -/
noncomputable def sumSqList (a : List ℝ) : ℝ :=
  (a.map (fun x => x * x)).sum

/-- `normA` / `normB` of `cosineSimilarity`. -/
noncomputable def normList (a : List ℝ) : ℝ :=
  Real.sqrt (sumSqList a)

open scoped Classical in
/-- The value `cosineSimilarity` returns for equal-length vectors. -/
noncomputable def cosVal (a b : List ℝ) : ℝ :=
  if normList a = 0 ∨ normList b = 0 then 0
  else dotList a b / (normList a * normList b)

/-- `cosineSimilarity(a, b)`: throws on a length mismatch. -/
noncomputable def cosineSimilarity (a b : List ℝ) : Except String ℝ :=
  if a.length ≠ b.length then
    .error ("Vector length mismatch: " ++ toString a.length ++ " vs " ++ toString b.length)
  else .ok (cosVal a b)

open scoped Classical in
/-- Stable insertion for `scored.sort((a, b) => b.score - a.score)`:
an element moves before another only when its score is strictly
larger. -/
noncomputable def insertScoreDesc (x : StoredVector × ℝ) :
    List (StoredVector × ℝ) → List (StoredVector × ℝ)
  | [] => [x]
  | y :: ys => if y.2 < x.2 then x :: y :: ys else y :: insertScoreDesc x ys

/-- The stable descending sort by score. -/
noncomputable def sortByScoreDesc (l : List (StoredVector × ℝ)) :
    List (StoredVector × ℝ) :=
  l.foldl (fun acc x => insertScoreDesc x acc) []

open scoped Classical in
/-- `search(namespace, queryVector, topK, minScore)`. -/
noncomputable def vsSearch (s : StoreState) (ns : String) (queryVector : List ℝ)
    (topK : ℕ) (minScore : ℝ) : Except String (List SearchResult) :=
  let s' := LocalVectorStore.init s ns
  match lookupNs s' ns with
  | none => .ok []
  | some idx =>
      if idx.vectors.length = 0 then .ok []
      else do
        let scored ← idx.vectors.mapM (fun sv =>
          (cosineSimilarity queryVector sv.vector).map (fun sc => (sv, sc)))
        let sorted := sortByScoreDesc scored
        .ok (((sorted.filter (fun p => minScore ≤ p.2)).take topK).map (fun p =>
          (⟨p.1.metadata.chunkId, p.1.metadata.pageId, p.1.metadata.docsetId,
            p.1.metadata.url, p.1.metadata.title, p.1.metadata.heading,
            p.1.metadata.content, p.2⟩ : SearchResult)))

/-! ### C7: embed → store → search round trip -/

theorem sumSqList_nonneg (a : List ℝ) : 0 ≤ sumSqList a := by
  apply List.sum_nonneg
  intro x hx
  obtain ⟨y, _, hy⟩ := List.mem_map.mp hx
  rw [← hy]
  exact mul_self_nonneg y

theorem dotList_self (a : List ℝ) : dotList a a = sumSqList a := by
  induction a with
  | nil => simp [dotList, sumSqList]
  | cons x xs ih =>
      simp only [dotList, sumSqList, List.zip_cons_cons, List.map_cons, List.sum_cons] at *
      rw [ih]

/-- The sum of squared coordinate differences. -/
noncomputable def diffSq (a b : List ℝ) : ℝ :=
  ((a.zip b).map (fun p => (p.1 - p.2) * (p.1 - p.2))).sum

theorem diffSq_nonneg (a b : List ℝ) : 0 ≤ diffSq a b := by
  apply List.sum_nonneg
  intro x hx
  obtain ⟨y, _, hy⟩ := List.mem_map.mp hx
  rw [← hy]
  exact mul_self_nonneg _

theorem diffSq_identity : ∀ (a b : List ℝ), a.length = b.length →
    diffSq a b = sumSqList a + sumSqList b - 2 * dotList a b := by
  intro a
  induction a with
  | nil =>
      intro b h
      have : b = [] := List.length_eq_zero.mp h.symm
      subst this
      simp [diffSq, sumSqList, dotList]
  | cons x xs ih =>
      intro b h
      cases b with
      | nil => simp at h
      | cons y ys =>
          simp only [List.length_cons, Nat.succ_inj] at h
          have hrec := ih ys h
          simp only [diffSq, sumSqList, dotList, List.zip_cons_cons, List.map_cons,
            List.sum_cons] at hrec ⊢
          rw [show ((xs.zip ys).map (fun p => (p.1 - p.2) * (p.1 - p.2))).sum =
            (xs.map (fun x => x * x)).sum + (ys.map (fun x => x * x)).sum -
              2 * ((xs.zip ys).map (fun p => p.1 * p.2)).sum from hrec]
          ring

theorem eq_of_diffSq_eq_zero : ∀ (a b : List ℝ), a.length = b.length →
    diffSq a b = 0 → a = b := by
  intro a
  induction a with
  | nil =>
      intro b h _
      exact (List.length_eq_zero.mp h.symm).symm
  | cons x xs ih =>
      intro b h hz
      cases b with
      | nil => simp at h
      | cons y ys =>
          simp only [List.length_cons, Nat.succ_inj] at h
          simp only [diffSq, List.zip_cons_cons, List.map_cons, List.sum_cons] at hz
          have h1 : 0 ≤ (x - y) * (x - y) := mul_self_nonneg _
          have h2 : 0 ≤ diffSq xs ys := diffSq_nonneg xs ys
          simp only [diffSq] at h2
          have hxy : (x - y) * (x - y) = 0 := by linarith
          have hrest : ((xs.zip ys).map (fun p => (p.1 - p.2) * (p.1 - p.2))).sum = 0 := by
            linarith
          have : x = y := by
            have := mul_self_eq_zero.mp hxy
            linarith [sub_eq_zero.mp this]
          rw [this, ih ys h hrest]

theorem unit_normList (a : List ℝ) (h : sumSqList a = 1) : normList a = 1 := by
  simp [normList, h]

theorem cosVal_self_unit (a : List ℝ) (h : sumSqList a = 1) : cosVal a a = 1 := by
  have hn := unit_normList a h
  rw [cosVal, if_neg (by rw [hn]; norm_num), dotList_self, h, hn]
  norm_num

theorem cosVal_lt_one_of_ne (a b : List ℝ) (hlen : a.length = b.length)
    (ha : sumSqList a = 1) (hb : sumSqList b = 1) (hne : a ≠ b) :
    cosVal a b < 1 := by
  have hna := unit_normList a ha
  have hnb := unit_normList b hb
  have hdpos : 0 < diffSq a b := by
    rcases lt_or_eq_of_le (diffSq_nonneg a b) with h | h
    · exact h
    · exact absurd (eq_of_diffSq_eq_zero a b hlen h.symm) hne
  have hdot : dotList a b = 1 - diffSq a b / 2 := by
    have := diffSq_identity a b hlen
    rw [ha, hb] at this
    linarith
  rw [cosVal, if_neg (by rw [hna, hnb]; norm_num), hna, hnb, hdot]
  norm_num
  linarith

theorem cosVal_zero_right (a b : List ℝ) (hb : normList b = 0) : cosVal a b = 0 := by
  rw [cosVal, if_pos (Or.inr hb)]

theorem sumSqQ_eq_map_sum (v : List ℚ) :
    LocalEmbeddingProvider.sumSqQ v = (v.map (fun x => x * x)).sum := by
  suffices h : ∀ init : ℚ, v.foldl (fun s x => s + x * x) init =
      init + (v.map (fun x => x * x)).sum by
    simpa using h 0
  induction v with
  | nil => intro init; simp
  | cons x xs ih =>
      intro init
      simp only [List.foldl_cons, List.map_cons, List.sum_cons, ih]
      ring

theorem sumSqQ_nonneg (v : List ℚ) : 0 ≤ LocalEmbeddingProvider.sumSqQ v := by
  rw [sumSqQ_eq_map_sum]
  apply List.sum_nonneg
  intro x hx
  obtain ⟨y, _, hy⟩ := List.mem_map.mp hx
  rw [← hy]
  exact mul_self_nonneg y

theorem sumSqList_map_cast (v : List ℚ) :
    sumSqList (v.map (fun (x : ℚ) => (x : ℝ))) = ((LocalEmbeddingProvider.sumSqQ v : ℚ) : ℝ) := by
  rw [sumSqQ_eq_map_sum]
  induction v with
  | nil => simp [sumSqList]
  | cons x xs ih =>
      simp only [sumSqList, List.map_cons, List.sum_cons] at ih ⊢
      rw [ih]
      norm_cast

theorem sumSqList_cast_div (v : List ℚ) (m : ℝ) :
    sumSqList (v.map (fun (x : ℚ) => (x : ℝ) / m)) =
      sumSqList (v.map (fun (x : ℚ) => (x : ℝ))) / (m * m) := by
  induction v with
  | nil => simp [sumSqList]
  | cons x xs ih =>
      simp only [sumSqList, List.map_cons, List.sum_cons] at ih ⊢
      rw [ih, div_mul_div_comm, div_add_div_same]

theorem normalize_of_ne_zero (v : List ℚ) (h : LocalEmbeddingProvider.sumSqQ v ≠ 0) :
    LocalEmbeddingProvider.normalize v =
      v.map (fun (x : ℚ) =>
        (x : ℝ) / Real.sqrt ((LocalEmbeddingProvider.sumSqQ v : ℚ) : ℝ)) := by
  have hpos : (0 : ℚ) < LocalEmbeddingProvider.sumSqQ v :=
    lt_of_le_of_ne (sumSqQ_nonneg v) (Ne.symm h)
  have hcast : (0 : ℝ) < ((LocalEmbeddingProvider.sumSqQ v : ℚ) : ℝ) := by
    exact_mod_cast hpos
  unfold LocalEmbeddingProvider.normalize
  rw [if_neg (by positivity)]

theorem normalize_unit (v : List ℚ) (h : LocalEmbeddingProvider.sumSqQ v ≠ 0) :
    sumSqList (LocalEmbeddingProvider.normalize v) = 1 := by
  have hpos : (0 : ℚ) < LocalEmbeddingProvider.sumSqQ v :=
    lt_of_le_of_ne (sumSqQ_nonneg v) (Ne.symm h)
  have hcast : (0 : ℝ) < ((LocalEmbeddingProvider.sumSqQ v : ℚ) : ℝ) := by
    exact_mod_cast hpos
  rw [normalize_of_ne_zero v h, sumSqList_cast_div, sumSqList_map_cast,
    Real.mul_self_sqrt (le_of_lt hcast)]
  exact div_self (ne_of_gt hcast)

theorem normalize_length (v : List ℚ) :
    (LocalEmbeddingProvider.normalize v).length = v.length := by
  unfold LocalEmbeddingProvider.normalize
  by_cases h : Real.sqrt ((LocalEmbeddingProvider.sumSqQ v : ℚ) : ℝ) = 0
  · simp [h]
  · simp [h]

theorem normalize_zero_normList (v : List ℚ) (h : LocalEmbeddingProvider.sumSqQ v = 0) :
    normList (LocalEmbeddingProvider.normalize v) = 0 := by
  unfold LocalEmbeddingProvider.normalize
  rw [if_pos (by rw [h]; simp)]
  rw [normList, sumSqList_map_cast, h]
  simp

theorem foldl_length_invariant {α : Type} (f : List ℚ → α → List ℚ)
    (hf : ∀ l x, (f l x).length = l.length) :
    ∀ (tf : List α) (init : List ℚ), (tf.foldl f init).length = init.length := by
  intro tf
  induction tf with
  | nil => intro init; rfl
  | cons p ps ih =>
      intro init
      rw [List.foldl_cons, ih, hf]

theorem accumulateVector_length (tf : List (String × ℚ)) :
    (LocalEmbeddingProvider.accumulateVector tf).length = 384 := by
  unfold LocalEmbeddingProvider.accumulateVector
  refine (foldl_length_invariant _ ?_ _ _).trans (by rw [List.length_replicate]; rfl)
  intro l x
  simp

/-- The pre-normalisation bucket vector of a text. -/
def rawLocalEmbed (text : String) : List ℚ :=
  LocalEmbeddingProvider.accumulateVector
    (LocalEmbeddingProvider.calculateTF (LocalEmbeddingProvider.tokenize text))

/-- The vector `embedSingle`/`embed` returns for a text (state-independent
by `C10`-style reasoning: the vocabulary never feeds back). -/
noncomputable def localEmbed (text : String) : List ℝ :=
  (LocalEmbeddingProvider.embedSingleSync text ⟨[]⟩).1

theorem localEmbed_eq (text : String) :
    localEmbed text = LocalEmbeddingProvider.normalize (rawLocalEmbed text) := rfl

theorem localEmbed_length (text : String) :
    (localEmbed text).length = 384 := by
  rw [localEmbed_eq, normalize_length]
  exact accumulateVector_length _

/-- `StoredVector` as the `for` loop of `upsert` stores it
(`{ id, vector, metadata }`). -/
def toStored (v : EmbeddingVector) : StoredVector :=
  ⟨v.id, v.vector, v.metadata⟩

/-- An embedded chunk as `indexPage` upserts it: the chunk id, the
deterministic local embedding of the chunk text, and metadata carrying
the chunk id and the chunk text as content. -/
noncomputable def chunkToVec (docsetId pageId url : String)
    (p : String × String) : EmbeddingVector :=
  ⟨p.1, localEmbed p.2, ⟨docsetId, pageId, p.1, url, none, none, p.2⟩⟩

theorem foldl_upsertOne_fresh (vs : List EmbeddingVector) :
    ∀ idx : VectorIndex,
      (∀ w ∈ idx.vectors, ∀ v ∈ vs, w.id ≠ v.id) →
      (vs.map EmbeddingVector.id).Nodup →
      (vs.foldl LocalVectorStore.upsertOne idx).vectors =
        idx.vectors ++ vs.map toStored := by
  induction vs with
  | nil => intro idx _ _; simp
  | cons v vs ih =>
      intro idx hfresh hnodup
      have hnone : idx.vectors.findIdx? (fun w => w.id = v.id) = none := by
        rw [List.findIdx?_eq_none_iff]
        intro w hw
        simp only [decide_eq_false_iff_not]
        exact hfresh w hw v (List.mem_cons_self v vs)
      have hstep : LocalVectorStore.upsertOne idx v =
          ⟨idx.vectors ++ [toStored v],
            if idx.dimensions = 0 then v.vector.length else idx.dimensions⟩ := by
        simp only [LocalVectorStore.upsertOne, hnone, toStored]
      simp only [List.map_cons, List.nodup_cons] at hnodup
      have hfresh' : ∀ w ∈ idx.vectors ++ [toStored v], ∀ u ∈ vs, w.id ≠ u.id := by
        intro w hw u hu
        rcases List.mem_append.mp hw with hw | hw
        · exact hfresh w hw u (List.mem_cons_of_mem v hu)
        · have hwv : w = toStored v := by simpa using hw
          subst hwv
          intro hid
          have hmm : u.id ∈ vs.map EmbeddingVector.id := List.mem_map_of_mem _ hu
          rw [← hid] at hmm
          exact hnodup.1 hmm
      rw [List.foldl_cons, hstep,
        ih ⟨idx.vectors ++ [toStored v],
          if idx.dimensions = 0 then v.vector.length else idx.dimensions⟩ hfresh' hnodup.2]
      simp

theorem upsert_empty_lookup (ns : String) (vs : List EmbeddingVector) :
    lookupNs (LocalVectorStore.upsert [] ns vs) ns =
      some (vs.foldl LocalVectorStore.upsertOne ⟨[], 0⟩) := by
  have h0 : LocalVectorStore.init [] ns = [(ns, (⟨[], 0⟩ : VectorIndex))] := by
    simp [LocalVectorStore.init, lookupNs, setNs]
  have h1 : lookupNs [(ns, (⟨[], 0⟩ : VectorIndex))] ns = some ⟨[], 0⟩ := by
    simp [lookupNs]
  simp only [LocalVectorStore.upsert, h0, h1]
  exact lookupNs_setNs_self _ _ _

/-- The comparator invariant of `scored.sort((a, b) => b.score - a.score)`:
scores never increase along the list. -/
def scoreGE (a b : StoredVector × ℝ) : Prop := b.2 ≤ a.2

theorem insertScoreDesc_mem (x y : StoredVector × ℝ) (l : List (StoredVector × ℝ)) :
    y ∈ insertScoreDesc x l ↔ y = x ∨ y ∈ l := by
  induction l with
  | nil => simp [insertScoreDesc]
  | cons z zs ih =>
      simp only [insertScoreDesc]
      by_cases h : z.2 < x.2
      · simp only [if_pos h, List.mem_cons]
      · simp only [if_neg h, List.mem_cons, ih]
        tauto

theorem insertScoreDesc_pairwise (x : StoredVector × ℝ) (l : List (StoredVector × ℝ))
    (h : l.Pairwise scoreGE) : (insertScoreDesc x l).Pairwise scoreGE := by
  induction l with
  | nil => simp [insertScoreDesc, scoreGE]
  | cons z zs ih =>
      rcases List.pairwise_cons.mp h with ⟨hz, hzs⟩
      simp only [insertScoreDesc]
      by_cases hlt : z.2 < x.2
      · rw [if_pos hlt]
        refine List.pairwise_cons.mpr ⟨?_, h⟩
        intro b hb
        rcases List.mem_cons.mp hb with rfl | hb
        · exact le_of_lt hlt
        · exact le_trans (hz b hb) (le_of_lt hlt)
      · rw [if_neg hlt]
        refine List.pairwise_cons.mpr ⟨?_, ih hzs⟩
        intro b hb
        rcases (insertScoreDesc_mem x b zs).mp hb with rfl | hb
        · exact le_of_not_lt hlt
        · exact hz b hb

theorem foldl_insertScoreDesc_pairwise (l : List (StoredVector × ℝ)) :
    ∀ acc : List (StoredVector × ℝ), acc.Pairwise scoreGE →
      (l.foldl (fun acc x => insertScoreDesc x acc) acc).Pairwise scoreGE := by
  induction l with
  | nil => intro acc h; exact h
  | cons x xs ih => intro acc h; exact ih _ (insertScoreDesc_pairwise x acc h)

theorem sortByScoreDesc_pairwise (l : List (StoredVector × ℝ)) :
    (sortByScoreDesc l).Pairwise scoreGE :=
  foldl_insertScoreDesc_pairwise l [] List.Pairwise.nil

theorem foldl_insertScoreDesc_mem (l : List (StoredVector × ℝ)) :
    ∀ (acc : List (StoredVector × ℝ)) (y : StoredVector × ℝ),
      (y ∈ l.foldl (fun acc x => insertScoreDesc x acc) acc ↔ y ∈ l ∨ y ∈ acc) := by
  induction l with
  | nil => intro acc y; simp
  | cons x xs ih =>
      intro acc y
      rw [List.foldl_cons, ih, insertScoreDesc_mem]
      simp only [List.mem_cons]
      tauto

theorem sortByScoreDesc_mem (l : List (StoredVector × ℝ)) (y : StoredVector × ℝ) :
    y ∈ sortByScoreDesc l ↔ y ∈ l := by
  rw [sortByScoreDesc, foldl_insertScoreDesc_mem]
  simp

theorem sortByScoreDesc_head_max (l : List (StoredVector × ℝ)) (h : StoredVector × ℝ)
    (t : List (StoredVector × ℝ)) (heq : sortByScoreDesc l = h :: t) :
    ∀ y ∈ l, y.2 ≤ h.2 := by
  intro y hy
  have hmem : y ∈ h :: t := by rw [← heq, sortByScoreDesc_mem]; exact hy
  rcases List.mem_cons.mp hmem with rfl | hmem
  · exact le_refl _
  · have hp := sortByScoreDesc_pairwise l
    rw [heq, List.pairwise_cons] at hp
    exact hp.1 y hmem

theorem mapM_loop_ok {α β : Type} (f : α → Except String β) (g : α → β) (l : List α)
    (h : ∀ x ∈ l, f x = .ok (g x)) (acc : List β) :
    List.mapM.loop f l acc = .ok (acc.reverse ++ l.map g) := by
  induction l generalizing acc with
  | nil => simp [List.mapM.loop, pure, Except.pure]
  | cons x xs ih =>
      simp only [List.mapM.loop, h x (List.mem_cons_self x xs), List.map_cons, bind,
        Except.bind]
      rw [ih (fun y hy => h y (List.mem_cons_of_mem x hy))]
      simp

theorem mapM_ok {α β : Type} (f : α → Except String β) (g : α → β) (l : List α)
    (h : ∀ x ∈ l, f x = .ok (g x)) : l.mapM f = .ok (l.map g) := by
  rw [List.mapM]
  simpa using mapM_loop_ok f g l h []

open scoped Classical in
set_option maxHeartbeats 1000000 in
/-- C7 (amended): embedding chunks with distinct ids and upserting them
into a fresh namespace, then searching with the embedding of one
chunk's exact text (`topK` at least 1, `minScore = 0`) returns that
chunk as the top result with score 1, provided the queried text's raw
bucket vector is nonzero and no other upserted chunk's embedding
coincides with the queried text's embedding. -/
theorem C7_embed_store_search_top_result
    (ns docsetId pageId url : String)
    (chunks : List (String × String)) (cid ctext : String) (topK : ℕ)
    (hmem : (cid, ctext) ∈ chunks)
    (hnodup : (chunks.map Prod.fst).Nodup)
    (htopK : 1 ≤ topK)
    (hq : LocalEmbeddingProvider.sumSqQ (rawLocalEmbed ctext) ≠ 0)
    (hsep : ∀ p ∈ chunks, p.1 ≠ cid → localEmbed p.2 ≠ localEmbed ctext) :
    ∃ r rest,
      vsSearch (LocalVectorStore.upsert [] ns (chunks.map (chunkToVec docsetId pageId url)))
          ns (localEmbed ctext) topK 0 = .ok (r :: rest) ∧
        r.chunkId = cid ∧ r.content = ctext ∧ r.score = 1 := by
  have hqunit : sumSqList (localEmbed ctext) = 1 := by
    rw [localEmbed_eq]; exact normalize_unit _ hq
  have hqlen : (localEmbed ctext).length = 384 := localEmbed_length ctext
  set vecs := chunks.map (chunkToVec docsetId pageId url) with hvecs
  have hids : vecs.map EmbeddingVector.id = chunks.map Prod.fst := by
    rw [hvecs, List.map_map]; rfl
  have hfold := foldl_upsertOne_fresh vecs ⟨[], 0⟩
    (by intro w hw; simp at hw) (by rw [hids]; exact hnodup)
  have hlook := upsert_empty_lookup ns vecs
  set idx0 := vecs.foldl LocalVectorStore.upsertOne ⟨[], 0⟩ with hidx0
  have hvectors : idx0.vectors = vecs.map toStored := by
    rw [hidx0, hfold]; rfl
  have hinit : LocalVectorStore.init (LocalVectorStore.upsert [] ns vecs) ns
      = LocalVectorStore.upsert [] ns vecs := by
    rw [LocalVectorStore.init, hlook]
    rfl
  have hlen0 : ¬ idx0.vectors.length = 0 := by
    rw [hvectors, hvecs]
    simp only [List.length_map]
    intro hc
    rw [List.length_eq_zero.mp hc] at hmem
    simp at hmem
  have hmapM : idx0.vectors.mapM (fun sv =>
      (cosineSimilarity (localEmbed ctext) sv.vector).map (fun sc => (sv, sc)))
      = .ok (idx0.vectors.map (fun sv => (sv, cosVal (localEmbed ctext) sv.vector))) := by
    apply mapM_ok
    intro sv hsv
    rw [hvectors, hvecs] at hsv
    simp only [List.map_map, List.mem_map] at hsv
    obtain ⟨p, hp, hpe⟩ := hsv
    have hlen : sv.vector.length = 384 := by
      rw [← hpe]
      exact localEmbed_length p.2
    rw [cosineSimilarity, if_neg (by rw [hqlen, hlen]; simp)]
    rfl
  have hout : vsSearch (LocalVectorStore.upsert [] ns vecs) ns (localEmbed ctext) topK 0
      = .ok ((((sortByScoreDesc (idx0.vectors.map
            (fun sv => (sv, cosVal (localEmbed ctext) sv.vector)))).filter
          (fun p => (0:ℝ) ≤ p.2)).take topK).map (fun p =>
        (⟨p.1.metadata.chunkId, p.1.metadata.pageId, p.1.metadata.docsetId,
          p.1.metadata.url, p.1.metadata.title, p.1.metadata.heading,
          p.1.metadata.content, p.2⟩ : SearchResult))) := by
    rw [vsSearch]
    rw [hinit, hlook]
    simp only [← hidx0, if_neg hlen0, hmapM]
    rfl
  set scored := idx0.vectors.map
      (fun sv => (sv, cosVal (localEmbed ctext) sv.vector)) with hscored
  have ht0 : (toStored (chunkToVec docsetId pageId url (cid, ctext)),
        cosVal (localEmbed ctext)
          (toStored (chunkToVec docsetId pageId url (cid, ctext))).vector)
      ∈ scored := by
    rw [hscored, hvectors, hvecs]
    exact List.mem_map_of_mem _ (List.mem_map_of_mem _ (List.mem_map_of_mem _ hmem))
  have h1 : cosVal (localEmbed ctext)
      (toStored (chunkToVec docsetId pageId url (cid, ctext))).vector = 1 :=
    cosVal_self_unit (localEmbed ctext) hqunit
  obtain ⟨h, t, hs⟩ : ∃ h t, sortByScoreDesc scored = h :: t := by
    cases hsort : sortByScoreDesc scored with
    | nil =>
        exfalso
        have hm := (sortByScoreDesc_mem scored _).mpr ht0
        rw [hsort] at hm
        simp at hm
    | cons a b => exact ⟨a, b, rfl⟩
  have hmax : (1:ℝ) ≤ h.2 := by
    have hle := sortByScoreDesc_head_max scored h t hs _ ht0
    simpa [h1] using hle
  have hhm : h ∈ scored := by
    have hm : h ∈ h :: t := List.mem_cons_self h t
    rw [← hs] at hm
    exact (sortByScoreDesc_mem scored h).mp hm
  rw [hscored, hvectors, hvecs] at hhm
  simp only [List.map_map, List.mem_map, Function.comp] at hhm
  obtain ⟨p, hp, hpe⟩ := hhm
  by_cases hpc : p.1 = cid
  · have hpeq : p = (cid, ctext) :=
      List.inj_on_of_nodup_map hnodup hp hmem hpc
    subst hpeq
    subst hpe
    obtain ⟨n, rfl⟩ : ∃ n, topK = n + 1 := ⟨topK - 1, by omega⟩
    have hfinal : vsSearch (LocalVectorStore.upsert [] ns vecs) ns
          (localEmbed ctext) (n + 1) 0
        = .ok ((⟨cid, pageId, docsetId, url, none, none, ctext, 1⟩ : SearchResult)
            :: ((t.filter (fun p => (0:ℝ) ≤ p.2)).take n).map (fun p =>
              (⟨p.1.metadata.chunkId, p.1.metadata.pageId, p.1.metadata.docsetId,
                p.1.metadata.url, p.1.metadata.title, p.1.metadata.heading,
                p.1.metadata.content, p.2⟩ : SearchResult))) := by
      rw [hout, hs, h1]
      rw [List.filter_cons]
      rw [if_pos (by norm_num)]
      rw [List.take_succ_cons, List.map_cons]
      rfl
    exact ⟨_, _, hfinal, rfl, rfl, rfl⟩
  · exfalso
    have hscore : h.2 = cosVal (localEmbed ctext) (localEmbed p.2) := by
      rw [← hpe]
      rfl
    rcases eq_or_ne (LocalEmbeddingProvider.sumSqQ (rawLocalEmbed p.2)) 0 with hz | hnz
    · have hzero : cosVal (localEmbed ctext) (localEmbed p.2) = 0 :=
        cosVal_zero_right _ _ (by rw [localEmbed_eq]; exact normalize_zero_normList _ hz)
      rw [hscore, hzero] at hmax
      linarith
    · have hunit : sumSqList (localEmbed p.2) = 1 := by
        rw [localEmbed_eq]; exact normalize_unit _ hnz
      have hlt : cosVal (localEmbed ctext) (localEmbed p.2) < 1 :=
        cosVal_lt_one_of_ne _ _ (by rw [localEmbed_length, localEmbed_length])
          hqunit hunit (fun he => hsep p hp hpc he.symm)
      rw [hscore] at hmax
      linarith

theorem localEmbed_empty_ne_helloworld : localEmbed "" ≠ localEmbed "hello world" := by
  intro he
  have hz : normList (localEmbed "") = 0 := by
    rw [localEmbed_eq]
    exact normalize_zero_normList _ (by decide!)
  have hu : sumSqList (localEmbed "hello world") = 1 := by
    rw [localEmbed_eq]
    exact normalize_unit _ (by decide!)
  rw [he, normList, hu, Real.sqrt_one] at hz
  exact one_ne_zero hz

/-- Witness for `C7_embed_store_search_top_result`: chunks `"c1"` (empty
text, zero embedding) and `"c2"` (`"hello world"`); searching with the
embedding of `"hello world"` returns `"c2"` with score 1. -/
theorem C7_embed_store_search_top_result_witness :
    ∃ r rest,
      vsSearch (LocalVectorStore.upsert [] "docset-d"
            ([("c1", ""), ("c2", "hello world")].map (chunkToVec "d" "p" "https://e.x/a")))
          "docset-d" (localEmbed "hello world") 1 0 = .ok (r :: rest) ∧
        r.chunkId = "c2" ∧ r.content = "hello world" ∧ r.score = 1 :=
  C7_embed_store_search_top_result "docset-d" "d" "p" "https://e.x/a"
    [("c1", ""), ("c2", "hello world")] "c2" "hello world" 1
    (by decide) (by decide) (by decide) (by decide!)
    (by
      intro p hp hne
      rcases List.mem_cons.mp hp with rfl | hp
      · exact localEmbed_empty_ne_helloworld
      · rcases List.mem_cons.mp hp with rfl | hp
        · exact absurd rfl hne
        · simp at hp)

open scoped Classical in
set_option maxHeartbeats 1000000 in
/-- C7 counterexample: chunks `"c1"` and `"c2"` carry the identical text
`"hello world"`; searching with the embedding of chunk `"c2"`'s exact
text returns chunk `"c1"` as the top result (the stable sort keeps the
first-stored chunk first among equal scores), refuting the
unconditional top-result claim. -/
theorem C7_counterexample :
    ∃ out,
      vsSearch (LocalVectorStore.upsert [] "docset-d"
            ([("c1", "hello world"), ("c2", "hello world")].map
              (chunkToVec "d" "p" "https://e.x/a")))
          "docset-d" (localEmbed "hello world") 2 0 = .ok out ∧
        out.map (fun r => r.chunkId) = ["c1", "c2"] := by
  have hq : LocalEmbeddingProvider.sumSqQ (rawLocalEmbed "hello world") ≠ 0 := by decide!
  have hqunit : sumSqList (localEmbed "hello world") = 1 := by
    rw [localEmbed_eq]; exact normalize_unit _ hq
  have hqlen : (localEmbed "hello world").length = 384 := localEmbed_length _
  set vecs := [("c1", "hello world"), ("c2", "hello world")].map
    (chunkToVec "d" "p" "https://e.x/a") with hvecs
  have hids : vecs.map EmbeddingVector.id = ["c1", "c2"] := by
    rw [hvecs, List.map_map]; rfl
  have hfold := foldl_upsertOne_fresh vecs ⟨[], 0⟩
    (by intro w hw; simp at hw) (by rw [hids]; decide)
  have hlook := upsert_empty_lookup "docset-d" vecs
  set idx0 := vecs.foldl LocalVectorStore.upsertOne ⟨[], 0⟩ with hidx0
  have hvectors : idx0.vectors = vecs.map toStored := by
    rw [hidx0, hfold]; rfl
  have hinit : LocalVectorStore.init (LocalVectorStore.upsert [] "docset-d" vecs) "docset-d"
      = LocalVectorStore.upsert [] "docset-d" vecs := by
    rw [LocalVectorStore.init, hlook]
    rfl
  have hlen0 : ¬ idx0.vectors.length = 0 := by
    rw [hvectors, hvecs]
    simp
  have hmapM : idx0.vectors.mapM (fun sv =>
      (cosineSimilarity (localEmbed "hello world") sv.vector).map (fun sc => (sv, sc)))
      = .ok (idx0.vectors.map
          (fun sv => (sv, cosVal (localEmbed "hello world") sv.vector))) := by
    apply mapM_ok
    intro sv hsv
    rw [hvectors, hvecs] at hsv
    simp only [List.map_map, List.map_cons, List.map_nil, List.mem_cons,
      List.not_mem_nil, or_false, Function.comp] at hsv
    have hlen : sv.vector.length = 384 := by
      rcases hsv with rfl | rfl
      · exact localEmbed_length _
      · exact localEmbed_length _
    rw [cosineSimilarity, if_neg (by rw [hqlen, hlen]; simp)]
    rfl
  set scored := idx0.vectors.map
      (fun sv => (sv, cosVal (localEmbed "hello world") sv.vector)) with hscored
  have hout : vsSearch (LocalVectorStore.upsert [] "docset-d" vecs) "docset-d"
        (localEmbed "hello world") 2 0
      = .ok ((((sortByScoreDesc scored).filter
          (fun p => (0:ℝ) ≤ p.2)).take 2).map (fun p =>
        (⟨p.1.metadata.chunkId, p.1.metadata.pageId, p.1.metadata.docsetId,
          p.1.metadata.url, p.1.metadata.title, p.1.metadata.heading,
          p.1.metadata.content, p.2⟩ : SearchResult))) := by
    rw [vsSearch]
    rw [hinit, hlook]
    simp only [← hidx0, if_neg hlen0, hmapM]
    rfl
  have h1a : cosVal (localEmbed "hello world")
      (toStored (chunkToVec "d" "p" "https://e.x/a" ("c1", "hello world"))).vector = 1 :=
    cosVal_self_unit (localEmbed "hello world") hqunit
  have h1b : cosVal (localEmbed "hello world")
      (toStored (chunkToVec "d" "p" "https://e.x/a" ("c2", "hello world"))).vector = 1 :=
    cosVal_self_unit (localEmbed "hello world") hqunit
  have hscored2 : scored =
      [(toStored (chunkToVec "d" "p" "https://e.x/a" ("c1", "hello world")), (1:ℝ)),
       (toStored (chunkToVec "d" "p" "https://e.x/a" ("c2", "hello world")), (1:ℝ))] := by
    rw [hscored, hvectors, hvecs]
    simp only [List.map_map, List.map_cons, List.map_nil, Function.comp]
    rw [h1a, h1b]
  have hsort : sortByScoreDesc scored =
      [(toStored (chunkToVec "d" "p" "https://e.x/a" ("c1", "hello world")), (1:ℝ)),
       (toStored (chunkToVec "d" "p" "https://e.x/a" ("c2", "hello world")), (1:ℝ))] := by
    rw [hscored2]
    simp [sortByScoreDesc, insertScoreDesc]
  have hfilter :
      ([(toStored (chunkToVec "d" "p" "https://e.x/a" ("c1", "hello world")), (1:ℝ)),
        (toStored (chunkToVec "d" "p" "https://e.x/a" ("c2", "hello world")), (1:ℝ))].filter
        (fun p => (0:ℝ) ≤ p.2))
      = [(toStored (chunkToVec "d" "p" "https://e.x/a" ("c1", "hello world")), (1:ℝ)),
         (toStored (chunkToVec "d" "p" "https://e.x/a" ("c2", "hello world")), (1:ℝ))] := by
    simp
  have hfinal : vsSearch (LocalVectorStore.upsert [] "docset-d" vecs) "docset-d"
        (localEmbed "hello world") 2 0
      = .ok [(⟨"c1", "p", "d", "https://e.x/a", none, none, "hello world", 1⟩ : SearchResult),
             (⟨"c2", "p", "d", "https://e.x/a", none, none, "hello world", 1⟩ : SearchResult)] := by
    rw [hout, hsort, hfilter]
    rfl
  exact ⟨_, hfinal, rfl⟩
